import Mathlib

/-!
Verification development for `scripts/build_from_readme.py`, the master-PDF
assembly pipeline.  Text is modelled as `List Char` (Python strings), page
geometry as rationals (Python floats, with the CSS-derived constants given by
their intended exact values), Python integers as `Nat`/`Int`, and the external
shims (network retrieval, PDF backend, filesystem, font metrics) as explicit
parameters: the glyph-measuring function `stringWidth` becomes an abstract
width function, per-item retrieval outcomes become an oracle list of
`Option Nat` page counts, and per-page overlay-merge outcomes become a boolean
oracle.  Every definition mirrors the corresponding Python function.
-/

set_option linter.unusedVariables false

namespace MasterPdf

/-! ### Python text primitives -/

/-- One step of Python `str.split()`: accumulate non-whitespace runs, the
current run being held reversed in `buf`. -/
def splitWordsGo (buf : List Char) : List Char → List (List Char)
  | [] => if buf = [] then [] else [buf.reverse]
  | c :: cs =>
    if c.isWhitespace then
      if buf = [] then splitWordsGo [] cs else buf.reverse :: splitWordsGo [] cs
    else splitWordsGo (c :: buf) cs

/-- Python `text.split()` with no arguments: split on whitespace runs,
dropping empty pieces. -/
def splitWords (s : List Char) : List (List Char) := splitWordsGo [] s

/-- Python `str.strip()`: drop leading and trailing whitespace. -/
def pystrip (s : List Char) : List Char :=
  ((s.dropWhile Char.isWhitespace).reverse.dropWhile Char.isWhitespace).reverse

/-- The candidate line `(line + " " + w).strip()` from `wrap_by_width`. -/
def cand (line w : List Char) : List Char := pystrip (line ++ ' ' :: w)

/-- The `if line:` flush used by `wrap_by_width`: Python truthiness of a
string is non-emptiness. -/
def flushLine (line : List Char) : List (List Char) :=
  if line = [] then [] else [line]

/-! ### `wrap_by_width` (source lines 123-150)

`sw` stands for `c.stringWidth (·, font, size)` at the active font and size:
an arbitrary rational-valued measure of a string. -/

/-- The hard-break loop of `wrap_by_width` for a token wider than the
available width: `buf` accumulates characters while the measured width stays
within `maxw`; on overflow the accumulated piece is emitted and the character
starts a new piece.  Returns the emitted pieces and the final `buf`. -/
def hardBreak (sw : List Char → ℚ) (maxw : ℚ) (buf : List Char) :
    List Char → List (List Char) × List Char
  | [] => ([], buf)
  | ch :: rest =>
    if sw (buf ++ [ch]) ≤ maxw then hardBreak sw maxw (buf ++ [ch]) rest
    else
      let r := hardBreak sw maxw [ch] rest
      (buf :: r.1, r.2)

/-- The main word loop of `wrap_by_width`: greedy append while the measured
candidate line fits, else flush the line and either start a new line with the
word or hard-break an over-wide token.  The trailing `if line:` flush of the
source is the `[]` case. -/
def wrapWords (sw : List Char → ℚ) (maxw : ℚ) :
    List (List Char) → List Char → List (List Char)
  | [], line => flushLine line
  | w :: ws, line =>
    let test := cand line w
    if sw test ≤ maxw then wrapWords sw maxw ws test
    else if maxw < sw w then
      let r := hardBreak sw maxw [] w
      flushLine line ++ r.1 ++ wrapWords sw maxw ws r.2
    else flushLine line ++ wrapWords sw maxw ws w

/-- `wrap_by_width(c, text, font, size, max_width)` with the canvas metric
abstracted into `sw`: word-wrap by measured widths, returning at least `[""]`
for a wordless input. -/
def wrap_by_width (sw : List Char → ℚ) (maxw : ℚ) (text : List Char) :
    List (List Char) :=
  let words := splitWords text
  if words = [] then [[]] else wrapWords sw maxw words []

/-! ### Properties of the split and strip primitives -/

theorem splitWordsGo_words (s : List Char) :
    ∀ buf, (∀ c ∈ buf, ¬ c.isWhitespace) →
      ∀ w ∈ splitWordsGo buf s, w ≠ [] ∧ ∀ c ∈ w, ¬ c.isWhitespace := by
  induction s with
  | nil =>
    intro buf hbuf w hw
    by_cases hb : buf = []
    · simp [splitWordsGo, hb] at hw
    · simp [splitWordsGo, hb] at hw
      subst hw
      refine ⟨by simpa using hb, ?_⟩
      intro c hc
      exact hbuf c (List.mem_reverse.mp hc)
  | cons c cs ih =>
    intro buf hbuf w hw
    by_cases hws : c.isWhitespace
    · by_cases hb : buf = []
      · simp [splitWordsGo, hws, hb] at hw
        exact ih [] (by simp) w hw
      · simp [splitWordsGo, hws, hb] at hw
        rcases hw with hw | hw
        · subst hw
          refine ⟨by simpa using hb, ?_⟩
          intro d hd
          exact hbuf d (List.mem_reverse.mp hd)
        · exact ih [] (by simp) w hw
    · simp only [splitWordsGo, if_neg hws] at hw
      refine ih (c :: buf) ?_ w hw
      intro d hd
      rcases List.mem_cons.mp hd with h | h
      · subst h; exact hws
      · exact hbuf d h

/-- Every word produced by `splitWords` is non-empty and whitespace-free. -/
theorem splitWords_words (s : List Char) :
    ∀ w ∈ splitWords s, w ≠ [] ∧ ∀ c ∈ w, ¬ c.isWhitespace :=
  splitWordsGo_words s [] (by simp)

/-- A string containing a non-whitespace character does not strip to empty. -/
theorem pystrip_ne_nil {s : List Char} (h : ∃ c ∈ s, ¬ c.isWhitespace) :
    pystrip s ≠ [] := by
  rcases h with ⟨c, hc, hcw⟩
  intro hnil
  unfold pystrip at hnil
  rw [List.reverse_eq_nil_iff, List.dropWhile_eq_nil_iff] at hnil
  have hdrop : ∀ x ∈ s.dropWhile Char.isWhitespace, x.isWhitespace := by
    intro x hx
    have := hnil x (List.mem_reverse.mpr hx)
    exact this
  have hsplit := List.takeWhile_append_dropWhile (p := Char.isWhitespace) (l := s)
  have hcmem : c ∈ s.takeWhile Char.isWhitespace ∨
      c ∈ s.dropWhile Char.isWhitespace := by
    rw [← List.mem_append, hsplit]; exact hc
  rcases hcmem with h | h
  · exact hcw (List.mem_takeWhile_imp h)
  · exact hcw (hdrop c h)

/-! ### Greedy wrapping, specified declaratively (claims C4, C10)

The spec states the wrapping contract in terms of decisions: a word is
appended exactly when the measured candidate fits, an over-wide token is
hard-split character-by-character into maximal-width pieces.  `Greedy`
renders that contract as an inductive relation between the word list, the
current line and the produced output; `HardSplitSpec` describes a maximal
split by its outcome, not by the loop that computes it. -/

/-- A page break between adjacent pieces is forced: the following piece
starts with a character that would have overflowed the previous piece. -/
def breakForced (sw : List Char → ℚ) (maxw : ℚ) (p q : List Char) : Prop :=
  ∃ c rest, q = c :: rest ∧ maxw < sw (p ++ [c])

/-- Declarative description of a maximal character-by-character split of a
token: the pieces and the remainder concatenate back to the token, and every
piece is maximal in the sense that moving the first character of its
successor back onto it would exceed the width. -/
def HardSplitSpec (sw : List Char → ℚ) (maxw : ℚ) (w : List Char)
    (pieces : List (List Char)) (rem : List Char) : Prop :=
  pieces.flatten ++ rem = w ∧ List.Chain' (breakForced sw maxw) (pieces ++ [rem])

/-- The greedy wrapping contract of the spec: `Greedy sw maxw ws line out`
holds when, starting from current line `line`, processing the words `ws`
produces exactly the lines `out` (flushed lines followed by the final flush),
where a word joins the current line exactly when the measured candidate line
fits, and an over-wide token is hard-split maximally. -/
inductive Greedy (sw : List Char → ℚ) (maxw : ℚ) :
    List (List Char) → List Char → List (List Char) → Prop
  | nil (line : List Char) : Greedy sw maxw [] line (flushLine line)
  | fits (w : List Char) (ws : List (List Char)) (line : List Char)
      (out : List (List Char)) :
      sw (cand line w) ≤ maxw →
      Greedy sw maxw ws (cand line w) out →
      Greedy sw maxw (w :: ws) line out
  | newLine (w : List Char) (ws : List (List Char)) (line : List Char)
      (out : List (List Char)) :
      ¬ sw (cand line w) ≤ maxw →
      ¬ maxw < sw w →
      Greedy sw maxw ws w out →
      Greedy sw maxw (w :: ws) line (flushLine line ++ out)
  | hardSplit (w : List Char) (ws : List (List Char)) (line : List Char)
      (out : List (List Char)) (pieces : List (List Char)) (rem : List Char) :
      ¬ sw (cand line w) ≤ maxw →
      maxw < sw w →
      HardSplitSpec sw maxw w pieces rem →
      Greedy sw maxw ws rem out →
      Greedy sw maxw (w :: ws) line (flushLine line ++ pieces ++ out)

/-- The hard-break loop satisfies its declarative description, generalized
over the running buffer: the pieces plus final buffer reassemble
`buf ++ cs`, every emitted break is forced, and the first element extends
`buf`. -/
theorem hardBreak_spec (sw : List Char → ℚ) (maxw : ℚ) (cs : List Char) :
    ∀ buf,
      (hardBreak sw maxw buf cs).1.flatten ++ (hardBreak sw maxw buf cs).2 =
          buf ++ cs ∧
      List.Chain' (breakForced sw maxw)
          ((hardBreak sw maxw buf cs).1 ++ [(hardBreak sw maxw buf cs).2]) ∧
      ∃ t, ((hardBreak sw maxw buf cs).1 ++
          [(hardBreak sw maxw buf cs).2]).head? = some (buf ++ t) := by
  induction cs with
  | nil =>
    intro buf
    refine ⟨by simp [hardBreak], by simp [hardBreak], ⟨[], by simp [hardBreak]⟩⟩
  | cons ch rest ih =>
    intro buf
    by_cases h : sw (buf ++ [ch]) ≤ maxw
    · obtain ⟨hjoin, hchain, t, ht⟩ := ih (buf ++ [ch])
      simp only [hardBreak, if_pos h]
      refine ⟨by rw [hjoin]; simp, hchain, ⟨ch :: t, ?_⟩⟩
      rw [ht]; simp
    · obtain ⟨hjoin, hchain, t, ht⟩ := ih [ch]
      simp only [hardBreak, if_neg h, List.cons_append]
      refine ⟨?_, ?_, ?_⟩
      · rw [List.flatten_cons, List.append_assoc, hjoin]; simp
      · rw [List.chain'_cons']
        refine ⟨?_, hchain⟩
        intro y hy
        rw [ht] at hy
        have hyv : y = ch :: t := by
          simpa using hy.symm
        exact ⟨ch, t, hyv, lt_of_not_le h⟩
      · exact ⟨[], by simp⟩

/-- `wrapWords` realizes the greedy wrapping contract from any starting
line. -/
theorem wrapWords_greedy (sw : List Char → ℚ) (maxw : ℚ)
    (ws : List (List Char)) : ∀ line,
    Greedy sw maxw ws line (wrapWords sw maxw ws line) := by
  induction ws with
  | nil => intro line; exact Greedy.nil line
  | cons w rest ih =>
    intro line
    by_cases h1 : sw (cand line w) ≤ maxw
    · rw [wrapWords]
      simp only [if_pos h1]
      exact Greedy.fits w rest line _ h1 (ih _)
    · by_cases h2 : maxw < sw w
      · rw [wrapWords]
        simp only [if_neg h1, if_pos h2]
        obtain ⟨hjoin, hchain, _⟩ := hardBreak_spec sw maxw w []
        exact Greedy.hardSplit w rest line _ _ _ h1 h2
          ⟨by simpa using hjoin, hchain⟩ (ih _)
      · rw [wrapWords]
        simp only [if_neg h1, if_neg h2]
        exact Greedy.newLine w rest line _ h1 h2 (ih _)

/-! ### Non-emptiness of wrapped output (claim C10) -/

theorem hardBreak_snd_ne_nil (sw : List Char → ℚ) (maxw : ℚ)
    (cs : List Char) : ∀ buf, buf ≠ [] ∨ cs ≠ [] →
    (hardBreak sw maxw buf cs).2 ≠ [] := by
  induction cs with
  | nil =>
    intro buf h
    rcases h with h | h
    · simpa [hardBreak] using h
    · exact absurd rfl h
  | cons ch rest ih =>
    intro buf h
    by_cases hc : sw (buf ++ [ch]) ≤ maxw
    · simp only [hardBreak, if_pos hc]
      exact ih (buf ++ [ch]) (Or.inl (by simp))
    · simp only [hardBreak, if_neg hc]
      exact ih [ch] (Or.inl (by simp))

theorem wrapWords_ne_nil (sw : List Char → ℚ) (maxw : ℚ)
    (ws : List (List Char))
    (hws : ∀ w ∈ ws, ∃ c ∈ w, ¬ c.isWhitespace) :
    ∀ line, line ≠ [] ∨ ws ≠ [] → wrapWords sw maxw ws line ≠ [] := by
  induction ws with
  | nil =>
    intro line h
    rcases h with h | h
    · simp [wrapWords, flushLine, h]
    · exact absurd rfl h
  | cons w rest ih =>
    have hw := hws w (List.mem_cons_self w rest)
    have hrest : ∀ v ∈ rest, ∃ c ∈ v, ¬ c.isWhitespace := fun v hv =>
      hws v (List.mem_cons_of_mem w hv)
    intro line h
    by_cases h1 : sw (cand line w) ≤ maxw
    · rw [wrapWords]
      simp only [if_pos h1]
      refine ih hrest (cand line w) (Or.inl ?_)
      refine pystrip_ne_nil ?_
      rcases hw with ⟨c, hc, hcw⟩
      exact ⟨c, by simp [hc], hcw⟩
    · by_cases h2 : maxw < sw w
      · rw [wrapWords]
        simp only [if_neg h1, if_pos h2]
        have hwne : w ≠ [] := by
          rcases hw with ⟨c, hc, _⟩
          exact List.ne_nil_of_mem hc
        have := ih hrest (hardBreak sw maxw [] w).2
          (Or.inl (hardBreak_snd_ne_nil sw maxw w [] (Or.inr hwne)))
        simp only [ne_eq, List.append_eq_nil] at *
        tauto
      · rw [wrapWords]
        simp only [if_neg h1, if_neg h2]
        have hwne : w ≠ [] := by
          rcases hw with ⟨c, hc, _⟩
          exact List.ne_nil_of_mem hc
        have := ih hrest w (Or.inl hwne)
        simp only [ne_eq, List.append_eq_nil] at *
        tauto

/-! ### Geometry constants (source lines 63-76)

The Python module computes these in floating point; the values below are the
intended exact results of the same arithmetic (for example
`LEADING = 12.5 * 1.3 = 16.25`).  None of the layout theorems depend on the
particular values. -/

def MARGIN_PT : ℚ := 45 / 2
def TOP_FIRST_PT : ℚ := 45
def TOP_NEXT_PT : ℚ := 45 / 2
def BODY_FS : ℚ := 25 / 2
def H1_FS : ℚ := 24
def H2_FS : ℚ := 18
def LEADING : ℚ := 65 / 4
def H1_LEADING : ℚ := 144 / 5
def TITLE_MB_PT : ℚ := 30
def INDEX_TOP_EXTRA_PT : ℚ := 12
/-- A4 page size in points, `210mm x 297mm` at 72 points per 25.4 mm. -/
def A4_W : ℚ := 75600 / 127
def A4_H : ℚ := 106920 / 127

/-- The two font families the index renderer draws with (FONT_REGULAR and
FONT_BOLD; the registered family name does not affect layout). -/
inductive Font
  | regular
  | bold
deriving DecidableEq

/-- Measured string width provided by the canvas:
`c.stringWidth(text, font, size)`. -/
def FontMetric : Type := Font → ℚ → List Char → ℚ

/-! ### `make_index_pages` layout state (source lines 337-442) -/

/-- Canvas layout state: zero-based page index (`current_page`) and current
baseline `y`. -/
structure LSt where
  page : ℕ
  y : ℚ
deriving DecidableEq

/-- `new_page(first)`: the starting baseline of a fresh page. -/
def newPageY (H : ℚ) (first : Bool) : ℚ :=
  H - (if first then TOP_FIRST_PT else TOP_NEXT_PT)

/-- `ensure_space(y, needed)`: page-break if the needed height does not fit
above the bottom margin. -/
def ensureSpace (H : ℚ) (st : LSt) (needed : ℚ) : LSt :=
  if st.y - needed < MARGIN_PT then ⟨st.page + 1, newPageY H false⟩ else st

/-- Net effect of `draw_h2_with_rule` on the baseline: text drawn at `y`,
then `y -= 6`, a rule, and a return of `y - 10`. -/
def drawH2 (st : LSt) : LSt := ⟨st.page, st.y - 16⟩

/-- Cover content extracted from the README
(`{title, subheads, intro, survival}`). -/
structure Cover where
  title : List Char
  subheads : List (List Char)
  intro : List (List Char)
  survival : Option (List Char × List Char)

/-- One intro paragraph: skipped if falsy, otherwise wrapped and drawn line
by line with an `ensure_space` per line, then a 4pt gap. -/
def introPara (sw : FontMetric) (W H : ℚ) (st : LSt) (para : List Char) :
    LSt :=
  if para = [] then st
  else
    let lines := wrap_by_width (sw Font.regular BODY_FS) (W - 2 * MARGIN_PT) para
    let st1 := lines.foldl
      (fun s _ =>
        let s2 := ensureSpace H s LEADING
        (⟨s2.page, s2.y - LEADING⟩ : LSt)) st
    ⟨st1.page, st1.y - 4⟩

/-- The front-matter portion of `make_index_pages`: H1 title (wrapped,
reserved as one block), subheads as H2s, intro paragraphs, the optional
survival-guide line, the extra gap, and the underlined "Index" header.
Returns the layout state at which the entry loop starts. -/
def coverLayout (sw : FontMetric) (W H : ℚ) (cover : Cover) : LSt :=
  let maxW := W - 2 * MARGIN_PT
  let st0 : LSt := ⟨0, newPageY H true⟩
  let titleLines := wrap_by_width (sw Font.bold H1_FS) maxW cover.title
  let st1 := ensureSpace H st0 (H1_LEADING * titleLines.length + TITLE_MB_PT)
  let st2 := titleLines.foldl (fun s _ => (⟨s.page, s.y - H1_LEADING⟩ : LSt)) st1
  let st3 : LSt := ⟨st2.page, st2.y - TITLE_MB_PT⟩
  let st4 := cover.subheads.foldl
    (fun s _ => drawH2 (ensureSpace H s (H2_FS + 16))) st3
  let st5 := cover.intro.foldl (introPara sw W H) st4
  let st6 : LSt :=
    match cover.survival with
    | none => st5
    | some _ =>
      let s := ensureSpace H st5 LEADING
      ⟨s.page, s.y - LEADING⟩
  let st7 : LSt :=
    let s := ensureSpace H st6 INDEX_TOP_EXTRA_PT
    ⟨s.page, s.y - INDEX_TOP_EXTRA_PT⟩
  drawH2 (ensureSpace H st7 (H2_FS + 16))

/-- One index entry as recorded by the layout: the page stored into
`link_rects`, the page on which each wrapped line was drawn (instrumenting
the `drawString` calls), the clickable rectangle and the displayed body page
number. -/
structure RowOut where
  page : ℕ
  linePages : List ℕ
  rect : ℚ × ℚ × ℚ × ℚ
  bodyStart : ℕ
deriving DecidableEq

/-- The inner draw loop of one entry row: draws each line at the current
state, moving the baseline down one leading per line; the page is never
advanced inside the loop.  Returns the page on which each line was drawn and
the final state. -/
def drawRowGo (st : LSt) : List (List Char) → List ℕ × LSt
  | [] => ([], st)
  | _ :: ls =>
    let r := drawRowGo ⟨st.page, st.y - LEADING⟩ ls
    (st.page :: r.1, r.2)

/-- The entry loop of `make_index_pages` (source lines 417-436): wrap the
title in the width reserved next to the page number, move the whole row to a
fresh page when the required height does not fit, then draw all its lines and
record the clickable rectangle. -/
def entriesGo (sw : FontMetric) (W H : ℚ) :
    LSt → List (List Char × ℕ) → List RowOut × LSt
  | st, [] => ([], st)
  | st, (t, bs) :: rest =>
    let lines := wrap_by_width (sw Font.regular BODY_FS)
      (W - 2 * MARGIN_PT - 48) t
    let required := LEADING * (lines.length : ℚ)
    let st1 : LSt :=
      if st.y - required < MARGIN_PT then ⟨st.page + 1, newPageY H false⟩
      else st
    let rectTop := st1.y
    let dr := drawRowGo st1 lines
    let st2 := dr.2
    let row : RowOut :=
      ⟨st2.page, dr.1, (MARGIN_PT, st2.y + LEADING - 2, W - MARGIN_PT, rectTop + 12), bs⟩
    let rec1 := entriesGo sw W H st2 rest
    (row :: rec1.1, rec1.2)

/-- Output of the index paginator: the recorded rows (`link_rects` plus the
per-line page instrumentation) and the final canvas state; the produced PDF
has `final.page + 1` pages. -/
structure IndexOut where
  rows : List RowOut
  final : LSt

/-- `make_index_pages(cover, body_entries, pagesize)`. -/
def make_index_pages (sw : FontMetric) (W H : ℚ) (cover : Cover)
    (bodyEntries : List (List Char × ℕ)) : IndexOut :=
  let st := coverLayout sw W H cover
  let r := entriesGo sw W H st bodyEntries
  ⟨r.1, r.2⟩

/-- The total height an entry row requires, as computed by the entry loop. -/
def requiredFor (sw : FontMetric) (W : ℚ) (t : List Char) : ℚ :=
  LEADING * ((wrap_by_width (sw Font.regular BODY_FS)
    (W - 2 * MARGIN_PT - 48) t).length : ℚ)

theorem drawRowGo_pages (lines : List (List Char)) : ∀ st : LSt,
    (drawRowGo st lines).2.page = st.page ∧
    ∀ p ∈ (drawRowGo st lines).1, p = st.page := by
  induction lines with
  | nil => intro st; exact ⟨rfl, by simp [drawRowGo]⟩
  | cons l ls ih =>
    intro st
    obtain ⟨h1, h2⟩ := ih ⟨st.page, st.y - LEADING⟩
    refine ⟨h1, ?_⟩
    intro p hp
    simp only [drawRowGo, List.mem_cons] at hp
    rcases hp with hp | hp
    · exact hp
    · exact h2 p hp

theorem entriesGo_rows (sw : FontMetric) (W H : ℚ)
    (entries : List (List Char × ℕ)) : ∀ st : LSt,
    ∀ row ∈ (entriesGo sw W H st entries).1, ∀ p ∈ row.linePages,
      p = row.page := by
  induction entries with
  | nil => intro st row hrow; simp [entriesGo] at hrow
  | cons e rest ih =>
    intro st row hrow
    obtain ⟨t, bs⟩ := e
    simp only [entriesGo, List.mem_cons] at hrow
    rcases hrow with hrow | hrow
    · subst hrow
      intro p hp
      simp only
      set st1 : LSt :=
        if st.y - LEADING * ((wrap_by_width (sw Font.regular BODY_FS)
            (W - 2 * MARGIN_PT - 48) t).length : ℚ) < MARGIN_PT then
          (⟨st.page + 1, newPageY H false⟩ : LSt)
        else st with hst1
      obtain ⟨h1, h2⟩ := drawRowGo_pages
        (wrap_by_width (sw Font.regular BODY_FS) (W - 2 * MARGIN_PT - 48) t) st1
      simp only at hp
      rw [h1]
      exact h2 p hp
    · exact ih _ row hrow

theorem entriesGo_head_page (sw : FontMetric) (W H : ℚ) (st : LSt)
    (t : List Char) (bs : ℕ) (rest : List (List Char × ℕ)) (row : RowOut)
    (h : (entriesGo sw W H st ((t, bs) :: rest)).1.head? = some row) :
    row.page =
      if st.y - requiredFor sw W t < MARGIN_PT then st.page + 1 else st.page := by
  simp only [entriesGo, List.head?_cons, Option.some.injEq] at h
  subst h
  simp only [requiredFor]
  set st1 : LSt :=
    if st.y - LEADING * ((wrap_by_width (sw Font.regular BODY_FS)
        (W - 2 * MARGIN_PT - 48) t).length : ℚ) < MARGIN_PT then
      (⟨st.page + 1, newPageY H false⟩ : LSt)
    else st with hst1
  obtain ⟨h1, _⟩ := drawRowGo_pages
    (wrap_by_width (sw Font.regular BODY_FS) (W - 2 * MARGIN_PT - 48) t) st1
  rw [h1]
  by_cases hc : st.y - LEADING * ((wrap_by_width (sw Font.regular BODY_FS)
      (W - 2 * MARGIN_PT - 48) t).length : ℚ) < MARGIN_PT
  · rw [hst1, if_pos hc, if_pos hc]
  · rw [hst1, if_neg hc, if_neg hc]

/-! ### Source inventory and numbering pipeline (`build_master`, lines 445-520)

Retrieval (`download_pdf` plus `PdfReader(...).pages`) is the external shim:
an oracle assigns each manifest item either `some count` (successful fetch
and read, with its page count) or `none` (any raised error, upon which the
`except` branch drops the item). -/

/-- A manifest item: `{"title": ..., "url": ...}`. -/
structure Item where
  title : List Char
  url : List Char
deriving DecidableEq

/-- Step 1 of `build_master`: iterate the items, keep `(item, count)` for
each successful retrieval, drop the item on any error and continue. -/
def fetchPhase (items : List Item) (oracle : List (Option ℕ)) :
    List (Item × ℕ) :=
  (items.zip oracle).filterMap fun p => p.2.map fun c => (p.1, c)

/-- The diagnostics emitted by step 1: one warning (naming the title) per
dropped item. -/
def fetchDiags (items : List Item) (oracle : List (Option ℕ)) :
    List (List Char) :=
  (items.zip oracle).filterMap fun p =>
    match p.2 with
    | none => some p.1.title
    | some _ => none

/-- One body range: `{"title": ..., "start_body": ..., "end_body": ...}`. -/
structure BodyRange where
  title : List Char
  start_body : ℕ
  end_body : ℕ
deriving DecidableEq

/-- The cursor loop of step 2: each entry starts where the cursor stands and
ends `count - 1` later; the cursor advances by `count`. -/
def bodyMapGo (cursor : ℕ) : List (Item × ℕ) → List BodyRange
  | [] => []
  | e :: rest =>
    ⟨e.1.title, cursor, cursor + e.2 - 1⟩ :: bodyMapGo (cursor + e.2) rest

/-- Step 2 of `build_master` (pass 1 of the numbering engine): body ranges
from page counts alone, cursor starting at 1. -/
def computeBodyRanges (cache : List (Item × ℕ)) : List BodyRange :=
  bodyMapGo 1 cache

/-- Sum of the page counts of the first `i` cache entries. -/
def prefixCount (cache : List (Item × ℕ)) (i : ℕ) : ℕ :=
  ((cache.take i).map fun e => e.2).sum

/-- One published page-map record. -/
structure PageMapEntry where
  title : List Char
  start_body : ℕ
  end_body : ℕ
  start_abs : ℕ
  end_abs : ℕ
deriving DecidableEq

/-- Step 4 of `build_master` (pass 2 of the numbering engine): absolute
numbers once the index page count is known.  The loop runs over
`zip(body_map, counts)`; the count component is unused. -/
def computePageMap (indexPages : ℕ) (bm : List BodyRange) (counts : List ℕ) :
    List PageMapEntry :=
  (bm.zip counts).map fun p =>
    ⟨p.1.title, p.1.start_body, p.1.end_body,
      indexPages + p.1.start_body, indexPages + p.1.end_body⟩

/-- Step 6 of `build_master`: one wired link per recorded index row,
`target_idx = index_pages + (body_start - 1)` zero-based.  Python integer
arithmetic, hence `ℤ`. -/
structure LinkRecord where
  fromPage : ℕ
  rect : ℚ × ℚ × ℚ × ℚ
  toPage : ℤ
deriving DecidableEq

def wireLinks (indexPages : ℕ) (cands : List (ℕ × (ℚ × ℚ × ℚ × ℚ) × ℕ)) :
    List LinkRecord :=
  cands.map fun c => ⟨c.1, c.2.1, (indexPages : ℤ) + ((c.2.2 : ℤ) - 1)⟩

/-! ### Assembly (step 5): physical page order and footer overlays

`merge_page_safe` swallows every merge failure, so a per-page boolean oracle
`mergeOk src page` records whether the overlay merge succeeded; the page is
added to the writer either way. -/

/-- One physical page of the assembled document: an index page, or body page
`j` of source `i` carrying an optional footer number. -/
inductive OutPage
  | index : ℕ → OutPage
  | body : ℕ → ℕ → Option ℕ → OutPage
deriving DecidableEq

/-- The per-source page loop: page `j` receives the running number `num`
as its footer when the overlay merge succeeds, is left unnumbered otherwise,
and is appended to the writer in both cases. -/
def emitSrcPages (ok : ℕ → Bool) (src num j : ℕ) : ℕ → List OutPage
  | 0 => []
  | c + 1 =>
    OutPage.body src j (if ok j then some num else none) ::
      emitSrcPages ok src (num + 1) (j + 1) c

/-- The body half of step 5: for each `(cache entry, page-map entry)` pair,
emit that source's pages with the running number starting at
`meta.start_body`. -/
def assembleBody (mergeOk : ℕ → ℕ → Bool) :
    ℕ → List ((Item × ℕ) × PageMapEntry) → List OutPage
  | _, [] => []
  | i, e :: rest =>
    emitSrcPages (mergeOk i) i e.2.start_body 0 e.1.2 ++
      assembleBody mergeOk (i + 1) rest

/-- Step 5 of `build_master`: all index pages in order, then every source
document in manifest order with footer overlays. -/
def assemblePages (indexPages : ℕ) (cache : List (Item × ℕ))
    (pm : List PageMapEntry) (mergeOk : ℕ → ℕ → Bool) : List OutPage :=
  (List.range indexPages).map OutPage.index ++
    assembleBody mergeOk 0 (cache.zip pm)

/-! ### Core facts about the numbering pipeline -/

theorem bodyMapGo_length (cache : List (Item × ℕ)) :
    ∀ cursor, (bodyMapGo cursor cache).length = cache.length := by
  induction cache with
  | nil => intro cursor; rfl
  | cons e rest ih =>
    intro cursor
    obtain ⟨it, c⟩ := e
    simp [bodyMapGo, ih]

/-- Closed form of the cursor loop: entry `i` starts at the cursor plus the
page counts before it. -/
theorem bodyMapGo_getElem? (cache : List (Item × ℕ)) : ∀ cursor i,
    (bodyMapGo cursor cache)[i]? = cache[i]?.map fun e =>
      (⟨e.1.title, cursor + prefixCount cache i,
        cursor + prefixCount cache i + e.2 - 1⟩ : BodyRange) := by
  induction cache with
  | nil => intro cursor i; simp [bodyMapGo]
  | cons e rest ih =>
    intro cursor i
    cases i with
    | zero => simp [bodyMapGo, prefixCount]
    | succ j =>
      simp only [bodyMapGo, List.getElem?_cons_succ]
      rw [ih (cursor + e.2) j]
      have hpc : prefixCount (e :: rest) (j + 1) = e.2 + prefixCount rest j := by
        simp [prefixCount, List.take_succ_cons]
      rw [hpc]
      cases rest[j]? with
      | none => rfl
      | some v =>
        simp only [Option.map_some']
        congr 2 <;> omega

theorem prefixCount_succ (cache : List (Item × ℕ)) (i : ℕ) (e : Item × ℕ)
    (h : cache[i]? = some e) :
    prefixCount cache (i + 1) = prefixCount cache i + e.2 := by
  unfold prefixCount
  rw [List.take_succ, h]
  simp

theorem computePageMap_getElem? (indexPages : ℕ) (bm : List BodyRange) :
    ∀ (counts : List ℕ) (i : ℕ),
      (computePageMap indexPages bm counts)[i]? =
      (bm.zip counts)[i]?.map fun p : BodyRange × ℕ =>
        (⟨p.1.title, p.1.start_body, p.1.end_body,
          indexPages + p.1.start_body, indexPages + p.1.end_body⟩ :
          PageMapEntry) := by
  intro counts i
  simp [computePageMap]

theorem emitSrcPages_length (ok : ℕ → Bool) (src : ℕ) :
    ∀ c num j, (emitSrcPages ok src num j c).length = c := by
  intro c
  induction c with
  | zero => intro num j; rfl
  | succ n ih => intro num j; simp [emitSrcPages, ih]

theorem emitSrcPages_getElem? (ok : ℕ → Bool) (src : ℕ) :
    ∀ c num j k, k < c →
      (emitSrcPages ok src num j c)[k]? =
        some (OutPage.body src (j + k)
          (if ok (j + k) then some (num + k) else none)) := by
  intro c
  induction c with
  | zero => intro num j k hk; omega
  | succ n ih =>
    intro num j k hk
    cases k with
    | zero => simp [emitSrcPages]
    | succ m =>
      simp only [emitSrcPages, List.getElem?_cons_succ]
      rw [ih (num + 1) (j + 1) m (by omega)]
      have h1 : j + 1 + m = j + (m + 1) := by omega
      have h2 : num + 1 + m = num + (m + 1) := by omega
      rw [h1, h2]

theorem assembleBody_length (ip : ℕ) (mergeOk : ℕ → ℕ → Bool)
    (cache : List (Item × ℕ)) : ∀ i0 cursor,
    (assembleBody mergeOk i0 (cache.zip
        (computePageMap ip (bodyMapGo cursor cache)
          (cache.map fun e => e.2)))).length =
      (cache.map fun e => e.2).sum := by
  induction cache with
  | nil => intro i0 cursor; rfl
  | cons e rest ih =>
    intro i0 cursor
    have hz : (e :: rest).zip
        (computePageMap ip (bodyMapGo cursor (e :: rest))
          ((e :: rest).map fun x => x.2)) =
        ((e, (⟨e.1.title, cursor, cursor + e.2 - 1, ip + cursor,
            ip + (cursor + e.2 - 1)⟩ : PageMapEntry)) :
          (Item × ℕ) × PageMapEntry) :: rest.zip
          (computePageMap ip (bodyMapGo (cursor + e.2) rest)
            (rest.map fun x => x.2)) := by
      simp [bodyMapGo, computePageMap]
    rw [hz]
    simp only [assembleBody, List.length_append, emitSrcPages_length]
    rw [ih (i0 + 1) (cursor + e.2)]
    simp

/-- Position `k` of the assembled body block holds a body page whose footer,
when the merge succeeded, is the running number `cursor + k`. -/
theorem assembleBody_getElem? (ip : ℕ) (mergeOk : ℕ → ℕ → Bool)
    (cache : List (Item × ℕ)) : ∀ i0 cursor k,
    k < (cache.map fun e => e.2).sum →
    ∃ i j, (assembleBody mergeOk i0 (cache.zip
        (computePageMap ip (bodyMapGo cursor cache)
          (cache.map fun e => e.2))))[k]? =
      some (OutPage.body i j
        (if mergeOk i j then some (cursor + k) else none)) := by
  induction cache with
  | nil => intro i0 cursor k hk; simp at hk
  | cons e rest ih =>
    intro i0 cursor k hk
    have hz : (e :: rest).zip
        (computePageMap ip (bodyMapGo cursor (e :: rest))
          ((e :: rest).map fun x => x.2)) =
        ((e, (⟨e.1.title, cursor, cursor + e.2 - 1, ip + cursor,
            ip + (cursor + e.2 - 1)⟩ : PageMapEntry)) :
          (Item × ℕ) × PageMapEntry) :: rest.zip
          (computePageMap ip (bodyMapGo (cursor + e.2) rest)
            (rest.map fun x => x.2)) := by
      simp [bodyMapGo, computePageMap]
    rw [hz]
    simp only [assembleBody]
    by_cases hke : k < e.2
    · refine ⟨i0, k, ?_⟩
      rw [List.getElem?_append_left (by rw [emitSrcPages_length]; exact hke)]
      have h := emitSrcPages_getElem? (mergeOk i0) i0 e.2 cursor 0 k hke
      simpa using h
    · simp only [List.map_cons, List.sum_cons] at hk
      obtain ⟨i, j, h⟩ := ih (i0 + 1) (cursor + e.2) (k - e.2) (by omega)
      refine ⟨i, j, ?_⟩
      rw [List.getElem?_append_right (by rw [emitSrcPages_length]; omega)]
      rw [emitSrcPages_length, h]
      have harith : cursor + e.2 + (k - e.2) = cursor + k := by omega
      rw [harith]

/-! ### `update_readme` (source lines 523-555)

The summary block is a pure function of the page map plus two strings the
environment supplies (the human-readable artifact size and the timestamp).
`re.sub(escape(BEGIN) + ".*?" + escape(END), block, md, DOTALL)` replaces
every leftmost-first, non-greedy match of a begin marker followed by the
nearest end marker; `subBlocksF` implements exactly that scan (the fuel is
only a structural-recursion bound: each replacement consumes at least the
two markers, so `md.length` steps always suffice). -/

def BEGIN_MARK : List Char := "<!-- BEGIN MASTER INDEX -->".data
def END_MARK : List Char := "<!-- END MASTER INDEX -->".data

/-- Split a string at the first occurrence of `pat`:
`some (pre, post)` with `s = pre ++ pat ++ post` and `pre` shortest. -/
def splitOnFirst (pat : List Char) : List Char → Option (List Char × List Char)
  | [] => if pat.isPrefixOf ([] : List Char) then some ([], []) else none
  | c :: cs =>
    if pat.isPrefixOf (c :: cs) then some ([], (c :: cs).drop pat.length)
    else
      match splitOnFirst pat cs with
      | none => none
      | some q => some (c :: q.1, q.2)

/-- Python `pat in s` (substring containment, for non-empty `pat`). -/
def containsSub (pat s : List Char) : Bool := (splitOnFirst pat s).isSome

/-- The replacement scan of `re.sub` for the pattern
`BEGIN_MARK (DOTALL .*?) END_MARK`: repeatedly find the first begin marker
with an end marker somewhere after it, replace the stretch through that first
end marker by `block`, and continue after it.  If the first begin marker has
no end marker after it, no later one has either, so nothing matches. -/
def subBlocksF (block : List Char) : ℕ → List Char → List Char
  | 0, md => md
  | f + 1, md =>
    (splitOnFirst BEGIN_MARK md).elim md fun p =>
      (splitOnFirst END_MARK p.2).elim md fun q =>
        p.1 ++ block ++ subBlocksF block f q.2

def subBlocks (block md : List Char) : List Char :=
  subBlocksF block md.length md

/-- Decimal rendering of a Python integer. -/
def natStr (n : ℕ) : List Char := (Nat.repr n).data

/-- One page-map bullet of the summary block. -/
def pageMapLine (e : PageMapEntry) : List Char :=
  "- **".data ++ e.title ++ "** — pp. ".data ++ natStr e.start_body ++
    "–".data ++ natStr e.end_body ++ " (open: [p.".data ++
    natStr e.start_body ++ "](pdfs/master.pdf#page=".data ++
    natStr e.start_abs ++ "))".data

/-- The lines of the generated summary block, in order. -/
def blockLines (size updated : List Char) (pm : List PageMapEntry) :
    List (List Char) :=
  [BEGIN_MARK, [],
    "## Master PDF".data,
    "- 📘 **[Download Master PDF](pdfs/master.pdf)** (".data ++ size ++ ")".data,
    "- _Index page(s) are unnumbered; body pages start at 1._".data,
    "- _Last updated: ".data ++ updated ++ "_".data, [],
    "### Page map (body numbering)".data] ++
  (if pm = [] then ["- *(no PDFs found in README)*".data]
    else pm.map pageMapLine) ++
  [[], END_MARK]

/-- Python `"\n".join(lines)`. -/
def joinNL : List (List Char) → List Char
  | [] => []
  | [l] => l
  | l :: ls => l ++ '\n' :: joinNL ls

/-- The rendered summary block. -/
def buildBlock (size updated : List Char) (pm : List PageMapEntry) :
    List Char :=
  joinNL (blockLines size updated pm)

/-- The rewrite applied to the manifest text for a given rendered block:
replace every marker-delimited stretch when both markers occur in the
manifest, otherwise append the block after a separator whose shape depends on
whether the manifest ends in a newline. -/
def updateCore (block md : List Char) : List Char :=
  if containsSub BEGIN_MARK md = true ∧ containsSub END_MARK md = true then
    subBlocks block md
  else
    md ++ (if md.getLast? = some '\n' then "\n---\n\n".data
      else "\n\n---\n\n".data) ++ block ++ ['\n']

/-- `update_readme(md, page_map)`, with the artifact size and timestamp as
parameters. -/
def update_readme (size updated : List Char) (pm : List PageMapEntry)
    (md : List Char) : List Char :=
  updateCore (buildBlock size updated pm) md

/-! ### Occurrence reasoning for the marker scan -/

/-- `pat` occurs as a contiguous substring of `s`. -/
def Occurs (pat s : List Char) : Prop := ∃ pre post, s = pre ++ pat ++ post

theorem splitOnFirst_some_eq {pat : List Char} : ∀ {s pre post : List Char},
    splitOnFirst pat s = some (pre, post) → s = pre ++ pat ++ post := by
  intro s
  induction s with
  | nil =>
    intro pre post h
    simp only [splitOnFirst] at h
    by_cases hp : pat.isPrefixOf ([] : List Char)
    · rw [if_pos hp] at h
      have hpat : pat = [] := by
        have := ( List.isPrefixOf_iff_prefix).mp hp
        simpa using this
      obtain ⟨h1, h2⟩ : pre = [] ∧ post = [] := by
        constructor <;> · injection h with h; injection h with ha hb; simp_all
      simp [h1, h2, hpat]
    · rw [if_neg hp] at h; exact absurd h (by simp)
  | cons c cs ih =>
    intro pre post h
    simp only [splitOnFirst] at h
    by_cases hp : pat.isPrefixOf (c :: cs)
    · rw [if_pos hp] at h
      obtain ⟨t, ht⟩ := ( List.isPrefixOf_iff_prefix).mp hp
      injection h with h
      injection h with ha hb
      subst ha
      rw [← ht] at hb ⊢
      rw [List.drop_left] at hb
      simp [hb]
    · rw [if_neg hp] at h
      cases hsc : splitOnFirst pat cs with
      | none => rw [hsc] at h; exact absurd h (by simp)
      | some q =>
        rw [hsc] at h
        injection h with h
        injection h with ha hb
        have := ih ((by rw [hsc]) :
          splitOnFirst pat cs = some (q.1, q.2))
        subst hb
        rw [← ha]
        simp [this]

theorem splitOnFirst_some_min {pat : List Char} : ∀ {s pre post : List Char},
    splitOnFirst pat s = some (pre, post) →
    ∀ pre2 post2, s = pre2 ++ pat ++ post2 → pre.length ≤ pre2.length := by
  intro s
  induction s with
  | nil =>
    intro pre post h pre2 post2 heq
    simp only [splitOnFirst] at h
    by_cases hp : pat.isPrefixOf ([] : List Char)
    · rw [if_pos hp] at h
      injection h with h
      injection h with ha hb
      subst ha
      simp
    · rw [if_neg hp] at h
      exact absurd h (by simp)
  | cons c cs ih =>
    intro pre post h pre2 post2 heq
    simp only [splitOnFirst] at h
    by_cases hp : pat.isPrefixOf (c :: cs)
    · rw [if_pos hp] at h
      injection h with h
      injection h with ha hb
      subst ha
      simp
    · rw [if_neg hp] at h
      cases hsc : splitOnFirst pat cs with
      | none => rw [hsc] at h; exact absurd h (by simp)
      | some q =>
        rw [hsc] at h
        injection h with h
        injection h with ha hb
        cases pre2 with
        | nil =>
          exfalso
          apply hp
          rw [ List.isPrefixOf_iff_prefix]
          exact ⟨post2, by simpa using heq.symm⟩
        | cons d pre2' =>
          have hcs : cs = pre2' ++ pat ++ post2 := by
            have htl := congrArg List.tail heq
            simpa using htl
          have := ih ((by rw [hsc]) :
            splitOnFirst pat cs = some (q.1, q.2)) pre2' post2 hcs
          subst ha
          simpa using this

theorem splitOnFirst_none_not_occurs {pat : List Char} :
    ∀ {s : List Char}, splitOnFirst pat s = none → ¬ Occurs pat s := by
  intro s
  induction s with
  | nil =>
    intro h hocc
    obtain ⟨pre, post, heq⟩ := hocc
    have hpat : pat = [] := by
      cases pat with
      | nil => rfl
      | cons a as =>
        exfalso
        have hlen := congrArg List.length heq
        simp only [List.length_nil, List.length_append, List.length_cons] at hlen
        omega
    simp [splitOnFirst, hpat, List.isPrefixOf_iff_prefix] at h
  | cons c cs ih =>
    intro h hocc
    simp only [splitOnFirst] at h
    by_cases hp : pat.isPrefixOf (c :: cs)
    · rw [if_pos hp] at h; exact absurd h (by simp)
    · rw [if_neg hp] at h
      cases hsc : splitOnFirst pat cs with
      | some q => rw [hsc] at h; exact absurd h (by simp)
      | none =>
        obtain ⟨pre, post, heq⟩ := hocc
        cases pre with
        | nil =>
          apply hp
          rw [ List.isPrefixOf_iff_prefix]
          exact ⟨post, by simpa using heq.symm⟩
        | cons d pre' =>
          have hcs : cs = pre' ++ pat ++ post := by
            have htl := congrArg List.tail heq
            simpa using htl
          exact ih hsc ⟨pre', post, hcs⟩

theorem splitOnFirst_isSome_of_occurs {pat s : List Char}
    (h : Occurs pat s) : (splitOnFirst pat s).isSome := by
  cases hs : splitOnFirst pat s with
  | none => exact absurd h (splitOnFirst_none_not_occurs hs)
  | some q => simp

/-- The converse characterization: a decomposition whose prefix is shortest
is what `splitOnFirst` returns. -/
theorem splitOnFirst_of_min {pat s pre post : List Char}
    (heq : s = pre ++ pat ++ post)
    (hmin : ∀ pre2 post2, s = pre2 ++ pat ++ post2 →
      pre.length ≤ pre2.length) :
    splitOnFirst pat s = some (pre, post) := by
  have hsome := splitOnFirst_isSome_of_occurs ⟨pre, post, heq⟩
  cases hs : splitOnFirst pat s with
  | none => rw [hs] at hsome; exact absurd hsome (by simp)
  | some q =>
    obtain ⟨a, b⟩ := q
    have hdec := splitOnFirst_some_eq hs
    have h1 : a.length ≤ pre.length := splitOnFirst_some_min hs pre post heq
    have h2 : pre.length ≤ a.length := hmin a b hdec
    have hlen : a.length = pre.length := le_antisymm h1 h2
    have heq2 : a ++ (pat ++ b) = pre ++ (pat ++ post) := by
      rw [← List.append_assoc, ← List.append_assoc, ← hdec, ← heq]
    obtain ⟨hpre, hrest⟩ := List.append_inj heq2 hlen
    subst hpre
    have : b = post := by
      exact List.append_cancel_left hrest
    subst this
    rfl

theorem splitOnFirst_some_length {pat s : List Char}
    {q : List Char × List Char} (h : splitOnFirst pat s = some q) :
    s.length = q.1.length + pat.length + q.2.length := by
  rw [splitOnFirst_some_eq (show splitOnFirst pat s = some (q.1, q.2) from h)]
  simp [List.length_append]
  omega

/-- Extending the searched string on the right does not move the first
occurrence. -/
theorem splitOnFirst_append_of_some {pat s pre post t : List Char}
    (h : splitOnFirst pat s = some (pre, post)) :
    splitOnFirst pat (s ++ t) = some (pre, post ++ t) := by
  have hdec := splitOnFirst_some_eq h
  apply splitOnFirst_of_min
  · rw [hdec]; simp
  · intro pre2 post2 heq2
    by_contra hlt
    push_neg at hlt
    have hslen : s.length = pre.length + pat.length + post.length :=
      splitOnFirst_some_length h
    have hpre2 : (pre2 ++ pat) <+: (s ++ t) := ⟨post2, by rw [heq2]⟩
    have hs : s <+: (s ++ t) := List.prefix_append s t
    have hlen : (pre2 ++ pat).length ≤ s.length := by
      rw [List.length_append]
      omega
    have hp2 : (pre2 ++ pat) <+: s :=
      List.prefix_of_prefix_length_le hpre2 hs hlen
    obtain ⟨rest, hrest⟩ := hp2
    have := splitOnFirst_some_min h pre2 rest (by rw [← hrest])
    omega

/-- No occurrence crosses the boundary of `u ++ v` when `u` and `v` are
occurrence-free and the first character of `v` is foreign to the pattern. -/
theorem not_occurs_append {pat u v : List Char}
    (hu : ¬ Occurs pat u) (hv : ¬ Occurs pat v)
    (hb : ∀ c, v.head? = some c → c ∉ pat) :
    ¬ Occurs pat (u ++ v) := by
  rintro ⟨pre, post, heq⟩
  have hlens : u.length + v.length =
      pre.length + pat.length + post.length := by
    have h0 := congrArg List.length heq
    simp only [List.length_append] at h0
    omega
  by_cases hcase : pre.length + pat.length ≤ u.length
  · have hpre : (pre ++ pat) <+: (u ++ v) := ⟨post, by rw [heq]⟩
    have hu2 : u <+: (u ++ v) := List.prefix_append u v
    have hp : (pre ++ pat) <+: u :=
      List.prefix_of_prefix_length_le hpre hu2
        (by rw [List.length_append]; omega)
    obtain ⟨rest, hrest⟩ := hp
    exact hu ⟨pre, rest, by rw [← hrest]⟩
  · by_cases hcase2 : u.length ≤ pre.length
    · have hu2 : u <+: (u ++ v) := List.prefix_append u v
      have hpre : pre <+: (u ++ v) := ⟨pat ++ post, by rw [heq, List.append_assoc]⟩
      have hp : u <+: pre := List.prefix_of_prefix_length_le hu2 hpre hcase2
      obtain ⟨w, hw⟩ := hp
      have hv2 : v = w ++ pat ++ post := by
        have h0 := heq
        rw [← hw] at h0
        simp only [List.append_assoc, List.append_cancel_left_eq] at h0
        rw [List.append_assoc]
        exact h0
      exact hv ⟨w, post, hv2⟩
    · push_neg at hcase hcase2
      have hvne : v ≠ [] := by
        intro hnil
        rw [hnil] at hlens
        simp at hlens
        omega
      obtain ⟨c0, vs, rfl⟩ := List.exists_cons_of_ne_nil hvne
      have hchar1 : (u ++ c0 :: vs)[u.length]? = some c0 := by
        rw [List.getElem?_append_right (le_refl _)]
        simp
      have hchar2 : (u ++ c0 :: vs)[u.length]? =
          pat[u.length - pre.length]? := by
        rw [heq, List.append_assoc]
        rw [List.getElem?_append_right (by omega)]
        rw [List.getElem?_append_left (by omega)]
      have hmem : c0 ∈ pat :=
        List.getElem?_mem (by rw [← hchar2, hchar1])
      exact hb c0 rfl hmem

/-- Finding the pattern planted right after an occurrence-free prefix, for a
pattern whose first character appears nowhere else in it. -/
theorem splitOnFirst_boundary {pat u w : List Char}
    (hpat : pat ≠ []) (hu : ¬ Occurs pat u)
    (hhead : ∀ c, pat.head? = some c → c ∉ pat.tail) :
    splitOnFirst pat (u ++ pat ++ w) = some (u, w) := by
  apply splitOnFirst_of_min rfl
  intro pre2 post2 heq
  by_contra hgt
  push_neg at hgt
  by_cases hcase : pre2.length + pat.length ≤ u.length
  · have hpre : (pre2 ++ pat) <+: (u ++ pat ++ w) :=
      ⟨post2, by rw [heq]⟩
    have hu2 : u <+: (u ++ pat ++ w) := by
      rw [List.append_assoc]
      exact List.prefix_append u (pat ++ w)
    have hp : (pre2 ++ pat) <+: u :=
      List.prefix_of_prefix_length_le hpre hu2
        (by rw [List.length_append]; omega)
    obtain ⟨rest, hrest⟩ := hp
    exact hu ⟨pre2, rest, by rw [← hrest]⟩
  · push_neg at hcase
    obtain ⟨c0, ptl, rfl⟩ := List.exists_cons_of_ne_nil hpat
    have hchar1 : ((u ++ (c0 :: ptl)) ++ w)[u.length]? = some c0 := by
      rw [List.append_assoc]
      rw [List.getElem?_append_right (le_refl _)]
      simp
    have hchar2 : ((u ++ (c0 :: ptl)) ++ w)[u.length]? =
        (c0 :: ptl)[u.length - pre2.length]? := by
      conv in (u ++ (c0 :: ptl)) ++ w => rw [heq]
      rw [List.append_assoc]
      rw [List.getElem?_append_right (by omega)]
      rw [List.getElem?_append_left (by omega)]
    have hpos : 0 < u.length - pre2.length := by omega
    have hmem : c0 ∈ ptl := by
      have hsome : (c0 :: ptl)[u.length - pre2.length]? = some c0 := by
        rw [← hchar2, hchar1]
      obtain ⟨k, hk⟩ : ∃ k, u.length - pre2.length = k + 1 :=
        ⟨u.length - pre2.length - 1, by omega⟩
      rw [hk] at hsome
      simp only [List.getElem?_cons_succ] at hsome
      exact List.getElem?_mem hsome
    exact hhead c0 rfl (by simpa using hmem)

/-! ### The replacement scan: fuel irrelevance and one-step unfolding -/

theorem begin_mark_ne_nil : BEGIN_MARK ≠ [] := by decide

theorem end_mark_ne_nil : END_MARK ≠ [] := by decide

theorem splitOnFirst_begin_nil :
    splitOnFirst BEGIN_MARK ([] : List Char) = none := by decide

theorem subBlocksF_nil (block : List Char) : ∀ f,
    subBlocksF block f [] = [] := by
  intro f
  cases f with
  | zero => rfl
  | succ n =>
    simp only [subBlocksF, splitOnFirst_begin_nil, Option.elim_none]

theorem subBlocksF_fuel (block : List Char) : ∀ N md f g,
    md.length ≤ f → md.length ≤ g → md.length ≤ N →
    subBlocksF block f md = subBlocksF block g md := by
  intro N
  induction N with
  | zero =>
    intro md f g hf hg hN
    have hmd : md = [] := List.length_eq_zero.mp (Nat.le_antisymm hN (Nat.zero_le _))
    subst hmd
    rw [subBlocksF_nil, subBlocksF_nil]
  | succ n ih =>
    intro md f g hf hg hN
    cases hmd : md with
    | nil => rw [subBlocksF_nil, subBlocksF_nil]
    | cons c cs =>
      subst hmd
      have hfpos : ∃ f', f = f' + 1 := by
        cases f with
        | zero => simp at hf
        | succ k => exact ⟨k, rfl⟩
      have hgpos : ∃ g', g = g' + 1 := by
        cases g with
        | zero => simp at hg
        | succ k => exact ⟨k, rfl⟩
      obtain ⟨f', rfl⟩ := hfpos
      obtain ⟨g', rfl⟩ := hgpos
      simp only [subBlocksF]
      cases h1 : splitOnFirst BEGIN_MARK (c :: cs) with
      | none => rfl
      | some p =>
        simp only [Option.elim_some]
        cases h2 : splitOnFirst END_MARK p.2 with
        | none => rfl
        | some q =>
          simp only [Option.elim_some]
          have hl1 := splitOnFirst_some_length h1
          have hl2 := splitOnFirst_some_length h2
          have hBpos : 0 < BEGIN_MARK.length := by decide
          have hq2 : q.2.length ≤ cs.length := by
            simp only [List.length_cons] at hl1
            omega
          have hf' : cs.length ≤ f' := by
            simp only [List.length_cons] at hf
            omega
          have hg' : cs.length ≤ g' := by
            simp only [List.length_cons] at hg
            omega
          have hN' : cs.length ≤ n := by
            simp only [List.length_cons] at hN
            omega
          have := ih q.2 f' g' (le_trans hq2 hf') (le_trans hq2 hg')
            (le_trans hq2 hN')
          rw [this]

/-- One-step unfolding of the scan when no begin marker occurs. -/
theorem subBlocks_eq_of_noBegin {block md : List Char}
    (h1 : splitOnFirst BEGIN_MARK md = none) : subBlocks block md = md := by
  cases hmd : md with
  | nil => rw [subBlocks, subBlocksF_nil]
  | cons c cs =>
    subst hmd
    rw [subBlocks]
    simp only [List.length_cons, subBlocksF, h1, Option.elim_none]

/-- One-step unfolding when the first begin marker has no end marker after
it: nothing matches and the text is unchanged. -/
theorem subBlocks_eq_of_noEnd {block md : List Char}
    {p : List Char × List Char}
    (h1 : splitOnFirst BEGIN_MARK md = some p)
    (h2 : splitOnFirst END_MARK p.2 = none) : subBlocks block md = md := by
  cases hmd : md with
  | nil => rw [subBlocks, subBlocksF_nil]
  | cons c cs =>
    subst hmd
    rw [subBlocks]
    simp only [List.length_cons, subBlocksF, h1, Option.elim_some, h2,
      Option.elim_none]

/-- One-step unfolding when a full match exists: the stretch from the first
begin marker through the first end marker after it is replaced by the block,
and the scan continues behind it. -/
theorem subBlocks_eq_step {block md : List Char}
    {p q : List Char × List Char}
    (h1 : splitOnFirst BEGIN_MARK md = some p)
    (h2 : splitOnFirst END_MARK p.2 = some q) :
    subBlocks block md = p.1 ++ block ++ subBlocks block q.2 := by
  cases hmd : md with
  | nil =>
    exfalso
    rw [hmd] at h1
    rw [splitOnFirst_begin_nil] at h1
    exact absurd h1 (by simp)
  | cons c cs =>
    subst hmd
    rw [subBlocks]
    simp only [List.length_cons, subBlocksF, h1, Option.elim_some, h2]
    have hl1 := splitOnFirst_some_length h1
    have hBpos : 0 < BEGIN_MARK.length := by decide
    rw [subBlocks]
    rw [subBlocksF_fuel block (q.2.length) q.2 cs.length q.2.length
      ?_ (le_refl _) (le_refl _)]
    have hl2 := splitOnFirst_some_length h2
    simp only [List.length_cons] at hl1
    omega

theorem begin_mark_head_unique :
    ∀ c, BEGIN_MARK.head? = some c → c ∉ BEGIN_MARK.tail := by
  intro c hc
  have h0 : BEGIN_MARK.head? = some '<' := rfl
  rw [h0] at hc
  injection hc with hc
  subst hc
  decide

/-- Re-scanning a replacement result is a fixed point: once every matched
stretch has been replaced by the block, a second scan finds exactly the
planted blocks and replaces them by themselves.  Requires the block to carry
its end marker only terminally. -/
theorem subBlocks_stable {block inner : List Char}
    (hblock : block = BEGIN_MARK ++ inner ++ END_MARK)
    (hclean : splitOnFirst END_MARK (inner ++ END_MARK) = some (inner, [])) :
    ∀ md, subBlocks block (subBlocks block md) = subBlocks block md := by
  suffices h : ∀ N md, md.length ≤ N →
      subBlocks block (subBlocks block md) = subBlocks block md by
    intro md
    exact h md.length md (le_refl _)
  intro N
  induction N with
  | zero =>
    intro md hmd
    have hnil : md = [] :=
      List.length_eq_zero.mp (Nat.le_antisymm hmd (Nat.zero_le _))
    subst hnil
    rw [subBlocks_eq_of_noBegin splitOnFirst_begin_nil,
      subBlocks_eq_of_noBegin splitOnFirst_begin_nil]
  | succ n ih =>
    intro md hmd
    cases h1 : splitOnFirst BEGIN_MARK md with
    | none =>
      rw [subBlocks_eq_of_noBegin h1, subBlocks_eq_of_noBegin h1]
    | some p =>
      cases h2 : splitOnFirst END_MARK p.2 with
      | none =>
        rw [subBlocks_eq_of_noEnd h1 h2, subBlocks_eq_of_noEnd h1 h2]
      | some q =>
        rw [subBlocks_eq_step h1 h2]
        have hnotu : ¬ Occurs BEGIN_MARK p.1 := by
          rintro ⟨a, b, hab⟩
          have hdec := splitOnFirst_some_eq h1
          have hmin := splitOnFirst_some_min h1 a (b ++ BEGIN_MARK ++ p.2)
            (by rw [hdec, hab]; simp [List.append_assoc])
          have hlab := congrArg List.length hab
          simp only [List.length_append] at hlab
          have hBpos : 0 < BEGIN_MARK.length := by decide
          omega
        have hsplit1 : splitOnFirst BEGIN_MARK
            (p.1 ++ block ++ subBlocks block q.2) =
            some (p.1, inner ++ END_MARK ++ subBlocks block q.2) := by
          have hre : p.1 ++ block ++ subBlocks block q.2 =
              p.1 ++ BEGIN_MARK ++
                (inner ++ END_MARK ++ subBlocks block q.2) := by
            rw [hblock]
            simp [List.append_assoc]
          rw [hre]
          exact splitOnFirst_boundary begin_mark_ne_nil hnotu
            begin_mark_head_unique
        have hsplit2 : splitOnFirst END_MARK
            (inner ++ END_MARK ++ subBlocks block q.2) =
            some (inner, subBlocks block q.2) := by
          have h3 := splitOnFirst_append_of_some
            (t := subBlocks block q.2) hclean
          simpa using h3
        rw [subBlocks_eq_step hsplit1 hsplit2]
        have hq2len : q.2.length ≤ n := by
          have hl1 := splitOnFirst_some_length h1
          have hl2 := splitOnFirst_some_length h2
          have hBpos : 0 < BEGIN_MARK.length := by decide
          omega
        rw [ih q.2 hq2len]

/-! ### Structure of the generated block -/

/-- The lines of the block strictly between the two markers. -/
def blockMids (size updated : List Char) (pm : List PageMapEntry) :
    List (List Char) :=
  [[], "## Master PDF".data,
    "- 📘 **[Download Master PDF](pdfs/master.pdf)** (".data ++ size ++ ")".data,
    "- _Index page(s) are unnumbered; body pages start at 1._".data,
    "- _Last updated: ".data ++ updated ++ "_".data, [],
    "### Page map (body numbering)".data] ++
  (if pm = [] then ["- *(no PDFs found in README)*".data]
    else pm.map pageMapLine) ++
  [[]]

theorem joinNL_cons (l : List Char) (ls : List (List Char)) (h : ls ≠ []) :
    joinNL (l :: ls) = l ++ '\n' :: joinNL ls := by
  cases ls with
  | nil => exact absurd rfl h
  | cons a as => rfl

theorem joinNL_concat (x : List Char) : ∀ ls : List (List Char), ls ≠ [] →
    joinNL (ls ++ [x]) = joinNL ls ++ '\n' :: x := by
  intro ls
  induction ls with
  | nil => intro h; exact absurd rfl h
  | cons l ls ih =>
    intro h
    cases ls with
    | nil => rfl
    | cons a as =>
      calc joinNL ((l :: a :: as) ++ [x])
          = joinNL (l :: ((a :: as) ++ [x])) := rfl
        _ = l ++ '\n' :: joinNL ((a :: as) ++ [x]) :=
            joinNL_cons _ _ (by simp)
        _ = l ++ '\n' :: (joinNL (a :: as) ++ '\n' :: x) := by
            rw [ih (by simp)]
        _ = (l ++ '\n' :: joinNL (a :: as)) ++ '\n' :: x := by simp
        _ = joinNL (l :: a :: as) ++ '\n' :: x := by
            rw [joinNL_cons l (a :: as) (by simp)]

theorem joinNL_sandwich (first lst : List Char) (mids : List (List Char))
    (h : mids ≠ []) :
    joinNL (first :: mids ++ [lst]) =
      first ++ ('\n' :: (joinNL mids ++ ['\n'])) ++ lst := by
  rw [show first :: mids ++ [lst] = first :: (mids ++ [lst]) from rfl]
  rw [joinNL_cons _ _ (by simp [h])]
  rw [joinNL_concat lst mids h]
  simp

/-- The generated block is the begin marker, an interior, and the end
marker. -/
theorem buildBlock_eq (size updated : List Char) (pm : List PageMapEntry) :
    buildBlock size updated pm =
      BEGIN_MARK ++ ('\n' :: (joinNL (blockMids size updated pm) ++ ['\n']))
        ++ END_MARK := by
  rw [buildBlock]
  rw [show blockLines size updated pm =
      BEGIN_MARK :: blockMids size updated pm ++ [END_MARK] from by
    simp [blockLines, blockMids]]
  exact joinNL_sandwich _ _ _ (by simp [blockMids])

/-- The block carries its end marker only terminally: the first end-marker
occurrence found in the block is its final line.  This is the case exactly
when no title (nor the size or timestamp string) smuggles an end marker into
the interior. -/
def blockEndClean (block : List Char) : Bool :=
  (splitOnFirst END_MARK block).elim false fun q => q.2.isEmpty

theorem block_clean_inner {block inner : List Char}
    (hdecomp : block = BEGIN_MARK ++ inner ++ END_MARK)
    (h : blockEndClean block = true) :
    splitOnFirst END_MARK (inner ++ END_MARK) = some (inner, []) := by
  unfold blockEndClean at h
  cases hs : splitOnFirst END_MARK block with
  | none => rw [hs] at h; simp at h
  | some q =>
    rw [hs] at h
    simp only [Option.elim_some, List.isEmpty_iff] at h
    have hdec := splitOnFirst_some_eq hs
    rw [h] at hdec
    have hdec2 : block = q.1 ++ END_MARK := by simpa using hdec
    have hq1 : q.1 = BEGIN_MARK ++ inner := by
      have h0 : q.1 ++ END_MARK = (BEGIN_MARK ++ inner) ++ END_MARK := by
        rw [← hdec2, hdecomp]
      exact List.append_cancel_right h0
    apply splitOnFirst_of_min (by simp)
    intro pre2 post2 heq2
    by_contra hlt
    push_neg at hlt
    have hblock2 : block = (BEGIN_MARK ++ pre2) ++ END_MARK ++ post2 := by
      have h3 : inner ++ END_MARK = pre2 ++ END_MARK ++ post2 := heq2
      rw [hdecomp]
      simp only [List.append_assoc] at h3 ⊢
      rw [h3]
    have hmin := splitOnFirst_some_min hs (BEGIN_MARK ++ pre2) post2 hblock2
    rw [hq1] at hmin
    simp only [List.length_append] at hmin
    omega

theorem containsSub_iff_occurs {pat s : List Char} :
    containsSub pat s = true ↔ Occurs pat s := by
  constructor
  · intro h
    unfold containsSub at h
    cases hs : splitOnFirst pat s with
    | none => rw [hs] at h; simp at h
    | some q => exact ⟨q.1, q.2, splitOnFirst_some_eq (by rw [hs])⟩
  · intro h
    unfold containsSub
    exact splitOnFirst_isSome_of_occurs h

/-- Stability of the core rewrite under re-application, for a block that
carries its end marker only terminally and a manifest that does not contain a
begin marker without an end marker. -/
theorem updateCore_stable {block inner : List Char}
    (hdecomp : block = BEGIN_MARK ++ inner ++ END_MARK)
    (hinner : splitOnFirst END_MARK (inner ++ END_MARK) = some (inner, []))
    (md : List Char)
    (hmark : containsSub BEGIN_MARK md = true →
      containsSub END_MARK md = true) :
    updateCore block (updateCore block md) = updateCore block md := by
  by_cases hcond : containsSub BEGIN_MARK md = true ∧
      containsSub END_MARK md = true
  · have hr1 : updateCore block md = subBlocks block md := by
      unfold updateCore
      rw [if_pos hcond]
    rw [hr1]
    cases h1 : splitOnFirst BEGIN_MARK md with
    | none =>
      exfalso
      have hB := hcond.1
      unfold containsSub at hB
      rw [h1] at hB
      simp at hB
    | some p =>
      cases h2 : splitOnFirst END_MARK p.2 with
      | none =>
        have hr1md : subBlocks block md = md := subBlocks_eq_of_noEnd h1 h2
        rw [hr1md, hr1, hr1md]
      | some q =>
        have hstep : subBlocks block md =
            p.1 ++ block ++ subBlocks block q.2 := subBlocks_eq_step h1 h2
        have hBocc : containsSub BEGIN_MARK (subBlocks block md) = true := by
          rw [containsSub_iff_occurs, hstep]
          refine ⟨p.1, inner ++ END_MARK ++ subBlocks block q.2, ?_⟩
          rw [hdecomp]
          simp
        have hEocc : containsSub END_MARK (subBlocks block md) = true := by
          rw [containsSub_iff_occurs, hstep]
          refine ⟨p.1 ++ (BEGIN_MARK ++ inner), subBlocks block q.2, ?_⟩
          rw [hdecomp]
          simp
        have hupd : updateCore block (subBlocks block md) =
            subBlocks block (subBlocks block md) := by
          unfold updateCore
          rw [if_pos ⟨hBocc, hEocc⟩]
        rw [hupd]
        exact subBlocks_stable hdecomp hinner md
  · have hnoB : containsSub BEGIN_MARK md = false := by
      by_cases hB : containsSub BEGIN_MARK md = true
      · exact absurd ⟨hB, hmark hB⟩ hcond
      · simpa using hB
    have hnoOccB : ¬ Occurs BEGIN_MARK md := by
      rw [← containsSub_iff_occurs]
      simp [hnoB]
    have hr1 : updateCore block md =
        md ++ (if md.getLast? = some '\n' then "\n---\n\n".data
          else "\n\n---\n\n".data) ++ block ++ ['\n'] := by
      unfold updateCore
      rw [if_neg hcond]
    have hsepB : ¬ Occurs BEGIN_MARK
        (if md.getLast? = some '\n' then "\n---\n\n".data
          else "\n\n---\n\n".data) := by
      by_cases hlast : md.getLast? = some '\n'
      · rw [if_pos hlast]
        exact splitOnFirst_none_not_occurs (by decide)
      · rw [if_neg hlast]
        exact splitOnFirst_none_not_occurs (by decide)
    have hsephead : ∀ c,
        (if md.getLast? = some '\n' then "\n---\n\n".data
          else "\n\n---\n\n".data).head? = some c → c ∉ BEGIN_MARK := by
      intro c hc
      by_cases hlast : md.getLast? = some '\n'
      · rw [if_pos hlast] at hc
        have h0 : ("\n---\n\n".data).head? = some '\n' := rfl
        rw [h0] at hc
        injection hc with hc
        subst hc
        decide
      · rw [if_neg hlast] at hc
        have h0 : ("\n\n---\n\n".data).head? = some '\n' := rfl
        rw [h0] at hc
        injection hc with hc
        subst hc
        decide
    have hnoOccU : ¬ Occurs BEGIN_MARK
        (md ++ (if md.getLast? = some '\n' then "\n---\n\n".data
          else "\n\n---\n\n".data)) :=
      not_occurs_append hnoOccB hsepB hsephead
    have hre : md ++ (if md.getLast? = some '\n' then "\n---\n\n".data
          else "\n\n---\n\n".data) ++ block ++ ['\n'] =
        (md ++ (if md.getLast? = some '\n' then "\n---\n\n".data
          else "\n\n---\n\n".data)) ++ BEGIN_MARK ++
          (inner ++ END_MARK ++ ['\n']) := by
      rw [hdecomp]
      simp
    have hsplit1 : splitOnFirst BEGIN_MARK
        (md ++ (if md.getLast? = some '\n' then "\n---\n\n".data
          else "\n\n---\n\n".data) ++ block ++ ['\n']) =
        some (md ++ (if md.getLast? = some '\n' then "\n---\n\n".data
          else "\n\n---\n\n".data), inner ++ END_MARK ++ ['\n']) := by
      rw [hre]
      exact splitOnFirst_boundary begin_mark_ne_nil hnoOccU
        begin_mark_head_unique
    have hsplit2 : splitOnFirst END_MARK (inner ++ END_MARK ++ ['\n']) =
        some (inner, ['\n']) := by
      have h3 := splitOnFirst_append_of_some (t := ['\n']) hinner
      simpa using h3
    have hBocc2 : containsSub BEGIN_MARK
        (md ++ (if md.getLast? = some '\n' then "\n---\n\n".data
          else "\n\n---\n\n".data) ++ block ++ ['\n']) = true := by
      rw [containsSub_iff_occurs, hre]
      exact ⟨_, _, rfl⟩
    have hEocc2 : containsSub END_MARK
        (md ++ (if md.getLast? = some '\n' then "\n---\n\n".data
          else "\n\n---\n\n".data) ++ block ++ ['\n']) = true := by
      rw [containsSub_iff_occurs, hre]
      refine ⟨(md ++ (if md.getLast? = some '\n' then "\n---\n\n".data
        else "\n\n---\n\n".data)) ++ BEGIN_MARK ++ inner, ['\n'], by simp⟩
    rw [hr1]
    have hupd : updateCore block
        (md ++ (if md.getLast? = some '\n' then "\n---\n\n".data
          else "\n\n---\n\n".data) ++ block ++ ['\n']) =
        subBlocks block
          (md ++ (if md.getLast? = some '\n' then "\n---\n\n".data
            else "\n\n---\n\n".data) ++ block ++ ['\n']) := by
      unfold updateCore
      rw [if_pos ⟨hBocc2, hEocc2⟩]
    rw [hupd]
    rw [subBlocks_eq_step hsplit1 hsplit2]
    rw [subBlocks_eq_of_noBegin
      (by decide : splitOnFirst BEGIN_MARK ['\n'] = none)]

/-- Idempotence of the manifest rewrite under the marker hypotheses. -/
theorem update_readme_stable (size updated : List Char)
    (pm : List PageMapEntry) (md : List Char)
    (hclean : blockEndClean (buildBlock size updated pm) = true)
    (hmark : containsSub BEGIN_MARK md = true →
      containsSub END_MARK md = true) :
    update_readme size updated pm (update_readme size updated pm md) =
      update_readme size updated pm md := by
  have hdecomp := buildBlock_eq size updated pm
  exact updateCore_stable hdecomp (block_clean_inner hdecomp hclean) md hmark

/-! ### `main` (source lines 558-572)

The README parse is the external collaborator of the spec: `mainModel` takes
the parse result `(cover, items)` as input.  Writes are recorded as effects:
`build_master` writes the master artifact, and the README is rewritten only
when the rewrite changed the text.  A missing README exits with code 1
before any write; an empty item list returns cleanly with no write. -/

inductive WriteEffect
  | master : List PageMapEntry → WriteEffect
  | readme : List Char → WriteEffect
deriving DecidableEq

structure RunResult where
  writes : List WriteEffect
  exitCode : ℕ
deriving DecidableEq

/-- `build_master(cover, items)`: the full pipeline, returning the page map
it publishes and the assembled physical pages. -/
def build_masterModel (sw : FontMetric) (cover : Cover) (items : List Item)
    (oracle : List (Option ℕ)) (mergeOk : ℕ → ℕ → Bool) :
    List PageMapEntry × List OutPage :=
  let cache := fetchPhase items oracle
  let bm := computeBodyRanges cache
  let ip := (make_index_pages sw A4_W A4_H cover
    (bm.map fun e => (e.title, e.start_body))).final.page + 1
  let pm := computePageMap ip bm (cache.map fun e => e.2)
  (pm, assemblePages ip cache pm mergeOk)

/-- `main()`, with the parse result and the external oracles as inputs. -/
def mainModel (sw : FontMetric) (readmeExists : Bool) (md : List Char)
    (cover : Cover) (items : List Item) (oracle : List (Option ℕ))
    (mergeOk : ℕ → ℕ → Bool) (size updated : List Char) : RunResult :=
  if readmeExists = false then ⟨[], 1⟩
  else if items = [] then ⟨[], 0⟩
  else
    let r := build_masterModel sw cover items oracle mergeOk
    let newMd := update_readme size updated r.1 md
    ⟨WriteEffect.master r.1 ::
      (if newMd ≠ md then [WriteEffect.readme newMd] else []), 0⟩

/-! ### Supporting facts for the claims -/

/-- `wrap_by_width` never returns an empty list of lines. -/
theorem wrap_by_width_ne_nil (sw : List Char → ℚ) (maxw : ℚ)
    (text : List Char) : wrap_by_width sw maxw text ≠ [] := by
  by_cases h : splitWords text = []
  · unfold wrap_by_width
    rw [if_pos h]
    simp
  · unfold wrap_by_width
    rw [if_neg h]
    apply wrapWords_ne_nil
    · intro w hw
      obtain ⟨hne, hall⟩ := splitWords_words text w hw
      cases w with
      | nil => exact absurd rfl hne
      | cons c cs =>
        exact ⟨c, List.mem_cons_self c cs, hall c (List.mem_cons_self c cs)⟩
    · exact Or.inr h

theorem drawRowGo_fst_length (lines : List (List Char)) : ∀ st : LSt,
    (drawRowGo st lines).1.length = lines.length := by
  induction lines with
  | nil => intro st; rfl
  | cons l ls ih =>
    intro st
    simp [drawRowGo, ih]

/-- Every laid-out row draws at least one line. -/
theorem entriesGo_linePages_ne_nil (sw : FontMetric) (W H : ℚ) :
    ∀ (entries : List (List Char × ℕ)) (st : LSt),
    ∀ row ∈ (entriesGo sw W H st entries).1, row.linePages ≠ [] := by
  intro entries
  induction entries with
  | nil => intro st row hrow; simp [entriesGo] at hrow
  | cons e rest ih =>
    intro st row hrow
    obtain ⟨t, bs⟩ := e
    simp only [entriesGo, List.mem_cons] at hrow
    rcases hrow with hrow | hrow
    · subst hrow
      simp only
      intro hnil
      have hlen := congrArg List.length hnil
      rw [drawRowGo_fst_length] at hlen
      exact wrap_by_width_ne_nil _ _ _ (List.length_eq_zero.mp hlen)
    · exact ih _ row hrow

theorem make_index_linePages_ne_nil (sw : FontMetric) (W H : ℚ)
    (cover : Cover) (entries : List (List Char × ℕ)) :
    ∀ row ∈ (make_index_pages sw W H cover entries).rows,
      row.linePages ≠ [] := by
  intro row hrow
  exact entriesGo_linePages_ne_nil sw W H entries
    (coverLayout sw W H cover) row hrow

theorem zip_getElem?_fst {α β : Type} : ∀ (l : List α) (l' : List β) (i : ℕ)
    (p : α × β), (l.zip l')[i]? = some p → l[i]? = some p.1 := by
  intro l
  induction l with
  | nil => intro l' i p h; simp at h
  | cons a as ih =>
    intro l' i p h
    cases l' with
    | nil => simp at h
    | cons b bs =>
      cases i with
      | zero =>
        simp only [List.zip_cons_cons, List.getElem?_cons_zero,
          Option.some.injEq] at h
        subst h
        simp
      | succ j =>
        simp only [List.zip_cons_cons, List.getElem?_cons_succ] at h
        simp only [List.getElem?_cons_succ]
        exact ih bs j p h

/-- What pass 2 does to entry `i`: it carries over the body range and shifts
both bounds by the index page count. -/
theorem computePageMap_body_core (ip : ℕ) (bm : List BodyRange)
    (counts : List ℕ) (i : ℕ) (r : PageMapEntry)
    (h : (computePageMap ip bm counts)[i]? = some r) :
    ∃ b : BodyRange, bm[i]? = some b ∧ r.title = b.title ∧
      r.start_body = b.start_body ∧ r.end_body = b.end_body ∧
      r.start_abs = ip + b.start_body ∧ r.end_abs = ip + b.end_body := by
  rw [computePageMap_getElem?] at h
  cases hz : (bm.zip counts)[i]? with
  | none => rw [hz] at h; simp at h
  | some p =>
    rw [hz] at h
    simp only [Option.map_some', Option.some.injEq] at h
    subst h
    exact ⟨p.1, zip_getElem?_fst bm counts i p hz, rfl, rfl, rfl, rfl, rfl⟩

/-- Adjacent body ranges are contiguous. -/
theorem bodyRanges_contig_core (cache : List (Item × ℕ)) (i : ℕ)
    (r r' : BodyRange) (hr : (computeBodyRanges cache)[i]? = some r)
    (hr' : (computeBodyRanges cache)[i + 1]? = some r') :
    r'.start_body = r.end_body + 1 := by
  rw [computeBodyRanges, bodyMapGo_getElem?] at hr hr'
  cases hi : cache[i]? with
  | none => rw [hi] at hr; simp at hr
  | some e =>
    cases hi' : cache[i + 1]? with
    | none => rw [hi'] at hr'; simp at hr'
    | some e' =>
      rw [hi] at hr
      rw [hi'] at hr'
      simp only [Option.map_some', Option.some.injEq] at hr hr'
      subst hr
      subst hr'
      have hpc := prefixCount_succ cache i e hi
      simp only
      omega

theorem fetchPhase_length (items : List Item) :
    ∀ oracle : List (Option ℕ), oracle.length = items.length →
    (fetchPhase items oracle).length = (oracle.filterMap id).length := by
  induction items with
  | nil =>
    intro oracle h
    have : oracle = [] := List.length_eq_zero.mp h
    subst this
    rfl
  | cons it items ih =>
    intro oracle h
    cases oracle with
    | nil => simp at h
    | cons o os =>
      have hrec := ih os (by simpa using h)
      cases o with
      | none =>
        have hf : fetchPhase (it :: items) (none :: os) =
            fetchPhase items os := by
          simp [fetchPhase]
        rw [hf, show (none :: os).filterMap id = os.filterMap id from by simp]
        exact hrec
      | some c =>
        have hf : fetchPhase (it :: items) (some c :: os) =
            (it, c) :: fetchPhase items os := by
          simp [fetchPhase]
        rw [hf, show (some c :: os).filterMap id = c :: os.filterMap id
          from by simp]
        simp [hrec]

theorem fetchPhase_partition (items : List Item) :
    ∀ oracle : List (Option ℕ), oracle.length = items.length →
    (fetchPhase items oracle).length + (fetchDiags items oracle).length =
      items.length := by
  induction items with
  | nil =>
    intro oracle h
    have : oracle = [] := List.length_eq_zero.mp h
    subst this
    rfl
  | cons it items ih =>
    intro oracle h
    cases oracle with
    | nil => simp at h
    | cons o os =>
      have hrec := ih os (by simpa using h)
      cases o with
      | none =>
        have hf : fetchPhase (it :: items) (none :: os) =
            fetchPhase items os := by
          simp [fetchPhase]
        have hd : fetchDiags (it :: items) (none :: os) =
            it.title :: fetchDiags items os := by
          simp [fetchDiags]
        rw [hf, hd]
        simp only [List.length_cons]
        omega
      | some c =>
        have hf : fetchPhase (it :: items) (some c :: os) =
            (it, c) :: fetchPhase items os := by
          simp [fetchPhase]
        have hd : fetchDiags (it :: items) (some c :: os) =
            fetchDiags items os := by
          simp [fetchDiags]
        rw [hf, hd]
        simp only [List.length_cons]
        omega

/-- Re-running the pipeline on just the surviving items, with every fetch
succeeding, reproduces the same cache. -/
theorem fetchPhase_self : ∀ l : List (Item × ℕ),
    fetchPhase (l.map Prod.fst) (l.map fun e => some e.2) = l := by
  intro l
  induction l with
  | nil => rfl
  | cons e rest ih =>
    simp only [fetchPhase, List.map_cons, List.zip_cons_cons,
      List.filterMap_cons] at *
    simp [ih]

/-- Pass 1 plus pass 2 of the pipeline as `build_master` composes them, from
the manifest items and a retrieval oracle. -/
def buildPageMapModel (indexPages : ℕ) (items : List Item)
    (oracle : List (Option ℕ)) : List PageMapEntry :=
  computePageMap indexPages (computeBodyRanges (fetchPhase items oracle))
    ((fetchPhase items oracle).map fun e => e.2)

/-! ### Concrete fixtures used by the witnesses -/

def itemA : Item := ⟨"a".data, "u".data⟩
def itemB : Item := ⟨"b".data, "v".data⟩
def itemC : Item := ⟨"c".data, "w".data⟩
def cacheW : List (Item × ℕ) := [(itemA, 2), (itemB, 3)]
def itemsW : List Item := [itemA, itemB, itemC]
def oracleW : List (Option ℕ) := [some 2, none, some 3]
def mergeOkW : ℕ → ℕ → Bool := fun _ j => j == 0
def swW : FontMetric := fun _ _ _ => 0
def coverW : Cover := ⟨"t".data, [], [], none⟩
def entriesW : List (List Char × ℕ) := [("a".data, 1)]
def swLen : List Char → ℚ := fun s => (s.length : ℚ)

theorem rowsW_ne_nil :
    (make_index_pages swW 1000 1000 coverW entriesW).rows ≠ [] := by decide

/-- The single row laid out for `entriesW`. -/
def rowW : RowOut :=
  (make_index_pages swW 1000 1000 coverW entriesW).rows.head rowsW_ne_nil

theorem rowW_mem :
    rowW ∈ (make_index_pages swW 1000 1000 coverW entriesW).rows :=
  List.head_mem rowsW_ne_nil

theorem rowW_linePages_ne_nil : rowW.linePages ≠ [] :=
  make_index_linePages_ne_nil swW 1000 1000 coverW entriesW rowW rowW_mem

/-- The page index recorded for the first drawn line of `rowW`. -/
def pW : ℕ := rowW.linePages.head rowW_linePages_ne_nil

theorem pW_mem : pW ∈ rowW.linePages :=
  List.head_mem rowW_linePages_ne_nil

/-! ### The claims -/

/-- Claim C1: for every list of successfully retrieved source entries with
page counts, the computed body ranges are contiguous starting at 1:
`startBody(i) = 1 + sum(c0..c(i-1))`, `endBody(i) = startBody(i) + c(i) - 1`,
`startBody(0) = 1`, and `startBody(i+1) = endBody(i) + 1` — no gaps, no
overlaps. -/
theorem claim_C1 (cache : List (Item × ℕ)) :
    (∀ (i : ℕ) (e : Item × ℕ), cache[i]? = some e →
      (computeBodyRanges cache)[i]? = some
        ⟨e.1.title, 1 + prefixCount cache i,
          1 + prefixCount cache i + e.2 - 1⟩) ∧
    (∀ r : BodyRange, (computeBodyRanges cache)[0]? = some r →
      r.start_body = 1) ∧
    (∀ (i : ℕ) (r r' : BodyRange),
      (computeBodyRanges cache)[i]? = some r →
      (computeBodyRanges cache)[i + 1]? = some r' →
      r'.start_body = r.end_body + 1) := by
  refine ⟨?_, ?_, ?_⟩
  · intro i e he
    rw [computeBodyRanges, bodyMapGo_getElem?, he]
    rfl
  · intro r hr
    rw [computeBodyRanges, bodyMapGo_getElem?] at hr
    cases h0 : cache[0]? with
    | none => rw [h0] at hr; simp at hr
    | some e =>
      rw [h0] at hr
      simp only [Option.map_some', Option.some.injEq] at hr
      subst hr
      simp [prefixCount]
  · exact fun i r r' => bodyRanges_contig_core cache i r r'

theorem claim_C1_witness :
    cacheW[1]? = some (itemB, 3) ∧
    (computeBodyRanges cacheW)[1]? = some
      ⟨(itemB, 3).1.title, 1 + prefixCount cacheW 1,
        1 + prefixCount cacheW 1 + (itemB, 3).2 - 1⟩ :=
  ⟨by decide, (claim_C1 cacheW).1 1 (itemB, 3) (by decide)⟩

/-- Claim C2: for every body-range list and every index page count, pass 2
sets `startAbs = indexPageCount + startBody` and
`endAbs = indexPageCount + endBody`, so the range length is preserved:
`startAbs - endAbs = startBody - endBody` (over the integers, as in
Python). -/
theorem claim_C2 (indexPages : ℕ) (bm : List BodyRange) (counts : List ℕ)
    (i : ℕ) (r : PageMapEntry)
    (h : (computePageMap indexPages bm counts)[i]? = some r) :
    ∃ b : BodyRange, bm[i]? = some b ∧
      r.start_abs = indexPages + b.start_body ∧
      r.end_abs = indexPages + b.end_body ∧
      (r.start_abs : ℤ) - (r.end_abs : ℤ) =
        (b.start_body : ℤ) - (b.end_body : ℤ) := by
  obtain ⟨b, hb, _, hsb, heb, hsa, hea⟩ :=
    computePageMap_body_core indexPages bm counts i r h
  refine ⟨b, hb, hsa, hea, ?_⟩
  rw [hsa, hea]
  push_cast
  ring

theorem claim_C2_witness :
    (computePageMap 1 [⟨"a".data, 1, 2⟩] [2])[0]? =
      some ⟨"a".data, 1, 2, 2, 3⟩ ∧
    ∃ b : BodyRange, ([(⟨"a".data, 1, 2⟩ : BodyRange)])[0]? = some b ∧
      (⟨"a".data, 1, 2, 2, 3⟩ : PageMapEntry).start_abs = 1 + b.start_body ∧
      (⟨"a".data, 1, 2, 2, 3⟩ : PageMapEntry).end_abs = 1 + b.end_body ∧
      ((⟨"a".data, 1, 2, 2, 3⟩ : PageMapEntry).start_abs : ℤ) -
        ((⟨"a".data, 1, 2, 2, 3⟩ : PageMapEntry).end_abs : ℤ) =
        (b.start_body : ℤ) - (b.end_body : ℤ) :=
  ⟨by decide, claim_C2 1 [⟨"a".data, 1, 2⟩] [2] 0 ⟨"a".data, 1, 2, 2, 3⟩
    (by decide)⟩

/-- Claim C3: for every cover and list of navigable entries laid out by the
index paginator, all wrapped lines of any one entry row are drawn on a single
index page (no row ever spans two page indices), and a row is moved to a
fresh page exactly when its total required height exceeds the remaining
vertical space of the current page. -/
theorem claim_C3 (sw : FontMetric) (W H : ℚ) (cover : Cover)
    (entries : List (List Char × ℕ)) :
    (∀ row ∈ (make_index_pages sw W H cover entries).rows,
      ∀ p ∈ row.linePages, p = row.page) ∧
    (∀ (st : LSt) (t : List Char) (bs : ℕ) (rest : List (List Char × ℕ))
      (row : RowOut),
      (entriesGo sw W H st ((t, bs) :: rest)).1.head? = some row →
      row.page = if st.y - requiredFor sw W t < MARGIN_PT then st.page + 1
        else st.page) := by
  constructor
  · intro row hrow
    exact entriesGo_rows sw W H entries (coverLayout sw W H cover) row hrow
  · exact fun st t bs rest row h =>
      entriesGo_head_page sw W H st t bs rest row h

theorem claim_C3_witness :
    rowW ∈ (make_index_pages swW 1000 1000 coverW entriesW).rows ∧
    pW ∈ rowW.linePages ∧ pW = rowW.page :=
  ⟨rowW_mem, pW_mem,
    (claim_C3 swW 1000 1000 coverW entriesW).1 rowW rowW_mem pW pW_mem⟩

/-- Claim C4: for every text, width measure and available width, the word
wrap is greedy over measured widths: a word joins the current line exactly
when the measured candidate line does not exceed the available width, and a
token wider than the available width is hard-split character-by-character
into maximal-width pieces. -/
theorem claim_C4 (sw : List Char → ℚ) (maxw : ℚ) (text : List Char)
    (h : splitWords text ≠ []) :
    Greedy sw maxw (splitWords text) [] (wrap_by_width sw maxw text) := by
  unfold wrap_by_width
  rw [if_neg h]
  exact wrapWords_greedy sw maxw (splitWords text) []

theorem claim_C4_witness :
    splitWords ("ab c".data) ≠ [] ∧
    Greedy swLen 5 (splitWords ("ab c".data)) []
      (wrap_by_width swLen 5 ("ab c".data)) :=
  ⟨by decide, claim_C4 swLen 5 ("ab c".data) (by decide)⟩

/-- Claim C5: for every link candidate `(fromPage, rect, bodyPageNumber)`
and every index page count, the wired link targets zero-based physical page
`indexPageCount + (bodyPageNumber - 1)` and keeps the source page and
rectangle. -/
theorem claim_C5 (indexPages : ℕ)
    (cands : List (ℕ × (ℚ × ℚ × ℚ × ℚ) × ℕ)) (i : ℕ)
    (c : ℕ × (ℚ × ℚ × ℚ × ℚ) × ℕ) (h : cands[i]? = some c) :
    (wireLinks indexPages cands)[i]? =
      some ⟨c.1, c.2.1, (indexPages : ℤ) + ((c.2.2 : ℤ) - 1)⟩ := by
  unfold wireLinks
  rw [List.getElem?_map, h]
  rfl

theorem claim_C5_witness :
    ([((0 : ℕ), ((0 : ℚ), (0 : ℚ), (0 : ℚ), (0 : ℚ)), (3 : ℕ))])[0]? =
      some (0, (0, 0, 0, 0), 3) ∧
    (wireLinks 2 [((0 : ℕ), ((0 : ℚ), (0 : ℚ), (0 : ℚ), (0 : ℚ)),
        (3 : ℕ))])[0]? =
      some ⟨(0, ((0 : ℚ), (0 : ℚ), (0 : ℚ), (0 : ℚ)), (3 : ℕ)).1,
        (0, ((0 : ℚ), (0 : ℚ), (0 : ℚ), (0 : ℚ)), (3 : ℕ)).2.1,
        ((2 : ℕ) : ℤ) +
          (((0, ((0 : ℚ), (0 : ℚ), (0 : ℚ), (0 : ℚ)), (3 : ℕ)).2.2 : ℤ) - 1)⟩ :=
  ⟨rfl, claim_C5 2 [((0 : ℕ), ((0 : ℚ), (0 : ℚ), (0 : ℚ), (0 : ℚ)),
    (3 : ℕ))] 0 (0, (0, 0, 0, 0), 3) rfl⟩

/-- Claim C6: for every item list and retrieval outcome, a failed item is
dropped with a diagnostic and processing continues: the page map has exactly
one entry per surviving item, equals the page map of the reduced manifest in
which the failed items never existed, and is numbered contiguously. -/
theorem claim_C6 (indexPages : ℕ) (items : List Item)
    (oracle : List (Option ℕ)) (hlen : oracle.length = items.length) :
    (buildPageMapModel indexPages items oracle).length =
      (oracle.filterMap id).length ∧
    (fetchPhase items oracle).length + (fetchDiags items oracle).length =
      items.length ∧
    buildPageMapModel indexPages items oracle =
      buildPageMapModel indexPages ((fetchPhase items oracle).map Prod.fst)
        ((fetchPhase items oracle).map fun e => some e.2) ∧
    (∀ (i : ℕ) (r r' : PageMapEntry),
      (buildPageMapModel indexPages items oracle)[i]? = some r →
      (buildPageMapModel indexPages items oracle)[i + 1]? = some r' →
      r'.start_body = r.end_body + 1) := by
  refine ⟨?_, fetchPhase_partition items oracle hlen, ?_, ?_⟩
  · have hc : (buildPageMapModel indexPages items oracle).length =
        (fetchPhase items oracle).length := by
      simp [buildPageMapModel, computePageMap, computeBodyRanges,
        bodyMapGo_length]
    rw [hc]
    exact fetchPhase_length items oracle hlen
  · unfold buildPageMapModel
    rw [fetchPhase_self]
  · intro i r r' hr hr'
    unfold buildPageMapModel at hr hr'
    obtain ⟨b, hb, _, hsb, heb, _, _⟩ :=
      computePageMap_body_core _ _ _ _ _ hr
    obtain ⟨b', hb', _, hsb', heb', _, _⟩ :=
      computePageMap_body_core _ _ _ _ _ hr'
    rw [hsb', heb]
    exact bodyRanges_contig_core _ i b b' hb hb'

theorem claim_C6_witness :
    oracleW.length = itemsW.length ∧
    (buildPageMapModel 1 itemsW oracleW).length =
      (oracleW.filterMap id).length :=
  ⟨by decide, (claim_C6 1 itemsW oracleW (by decide)).1⟩

/-- Claim C7: in the assembled document every body page is present and, when
its overlay merge succeeded, carries as footer its body-relative running
number `k + 1` (the absolute position would be `indexPages + k + 1`); a
failed merge leaves the page in place unnumbered; index pages carry no
footer; no merge outcome changes the page count. -/
theorem claim_C7 (indexPages : ℕ) (cache : List (Item × ℕ))
    (mergeOk : ℕ → ℕ → Bool) :
    (assemblePages indexPages cache
      (computePageMap indexPages (computeBodyRanges cache)
        (cache.map fun e => e.2)) mergeOk).length =
      indexPages + (cache.map fun e => e.2).sum ∧
    (∀ k, k < indexPages →
      (assemblePages indexPages cache
        (computePageMap indexPages (computeBodyRanges cache)
          (cache.map fun e => e.2)) mergeOk)[k]? =
        some (OutPage.index k)) ∧
    (∀ k, k < (cache.map fun e => e.2).sum → ∃ i j,
      (assemblePages indexPages cache
        (computePageMap indexPages (computeBodyRanges cache)
          (cache.map fun e => e.2)) mergeOk)[indexPages + k]? =
        some (OutPage.body i j
          (if mergeOk i j then some (k + 1) else none))) := by
  refine ⟨?_, ?_, ?_⟩
  · unfold assemblePages computeBodyRanges
    rw [List.length_append, List.length_map, List.length_range,
      assembleBody_length]
  · intro k hk
    unfold assemblePages
    rw [List.getElem?_append_left (by simpa using hk)]
    rw [List.getElem?_map, List.getElem?_range hk]
    rfl
  · intro k hk
    unfold assemblePages computeBodyRanges
    rw [List.getElem?_append_right (by simp)]
    simp only [List.length_map, List.length_range]
    obtain ⟨i, j, h⟩ := assembleBody_getElem? indexPages mergeOk cache 0 1 k hk
    refine ⟨i, j, ?_⟩
    rw [show indexPages + k - indexPages = k from by omega, h]
    rw [show 1 + k = k + 1 from by omega]

theorem claim_C7_witness :
    (1 : ℕ) < (cacheW.map fun e => e.2).sum ∧
    (∃ i j, (assemblePages 1 cacheW
        (computePageMap 1 (computeBodyRanges cacheW)
          (cacheW.map fun e => e.2)) mergeOkW)[1 + 1]? =
      some (OutPage.body i j
        (if mergeOkW i j then some (1 + 1) else none))) :=
  ⟨by decide, (claim_C7 1 cacheW mergeOkW).2.2 1 (by decide)⟩

/-- Claim C8: when parsing yields no (title, locator) pairs, the run
performs no writes at all — no master artifact, no manifest rewrite — and
the process exits cleanly with code 0. -/
theorem claim_C8 (sw : FontMetric) (md : List Char) (cover : Cover)
    (oracle : List (Option ℕ)) (mergeOk : ℕ → ℕ → Bool)
    (size updated : List Char) :
    mainModel sw true md cover [] oracle mergeOk size updated =
      ⟨[], 0⟩ := by
  rfl

theorem claim_C8_witness :
    mainModel swW true ("m".data) coverW [] oracleW mergeOkW [] [] =
      ⟨[], 0⟩ :=
  claim_C8 swW ("m".data) coverW oracleW mergeOkW [] []

set_option maxRecDepth 100000 in
/-- Claim C9, counterexample: applying the rewrite twice is not always the
same as once.  On a manifest consisting of just the begin marker (and an
empty page map) the first application appends the block after a separator,
and the second collapses the stretch from the manifest's begin marker to the
block's end marker. -/
theorem claim_C9_counterexample :
    update_readme [] [] [] (update_readme [] [] [] BEGIN_MARK) ≠
      update_readme [] [] [] BEGIN_MARK := by
  decide

/-- Claim C9 (amended): rewriting the manifest summary block is stable under
re-application — `update(update(md)) = update(md)` for the same page map,
size and timestamp — provided the generated block contains the end marker
only as its terminal line (no page-map title, size or timestamp string
smuggles in an end marker) and the manifest does not contain the begin
marker without the end marker.  Without these provisos the claim is false,
see the counterexample. -/
theorem claim_C9_amended (size updated : List Char)
    (pm : List PageMapEntry) (md : List Char)
    (hclean : blockEndClean (buildBlock size updated pm) = true)
    (hmark : containsSub BEGIN_MARK md = true →
      containsSub END_MARK md = true) :
    update_readme size updated pm (update_readme size updated pm md) =
      update_readme size updated pm md := by
  have hdecomp := buildBlock_eq size updated pm
  exact updateCore_stable hdecomp (block_clean_inner hdecomp hclean) md hmark

set_option maxRecDepth 100000 in
theorem claim_C9_witness :
    blockEndClean (buildBlock [] [] []) = true ∧
    (containsSub BEGIN_MARK ("x".data) = true →
      containsSub END_MARK ("x".data) = true) ∧
    update_readme [] [] [] (update_readme [] [] [] ("x".data)) =
      update_readme [] [] [] ("x".data) :=
  ⟨by decide, by decide,
    claim_C9_amended [] [] [] ("x".data) (by decide) (by decide)⟩

/-- Claim C10: for every input text — including empty and whitespace-only
strings — `wrap_by_width` returns a non-empty list of lines, and a wordless
input yields exactly one empty line, so every wrapped block occupies at
least one line of vertical space. -/
theorem claim_C10 (sw : List Char → ℚ) (maxw : ℚ) (text : List Char) :
    wrap_by_width sw maxw text ≠ [] ∧
    (splitWords text = [] → wrap_by_width sw maxw text = [[]]) := by
  refine ⟨wrap_by_width_ne_nil sw maxw text, ?_⟩
  intro h
  unfold wrap_by_width
  rw [if_pos h]

theorem claim_C10_witness :
    wrap_by_width swLen 5 (" ".data) ≠ [] ∧
    (splitWords (" ".data) = [] → wrap_by_width swLen 5 (" ".data) = [[]]) :=
  claim_C10 swLen 5 (" ".data)

end MasterPdf

